import Mathlib

/-!
Verification of the S3-backed filesystem backend
(tinylicious `routes/storage/git/filesystem/s3Filesystem.ts`,
class `S3PromisifiedFileSystem`, the variant that normalizes paths).

JavaScript strings are embedded as `List Char`; byte payloads as
`List Nat`.  The S3 client is modelled as a flat key-value store whose
listing is returned in lexicographic key order, as S3 guarantees.
-/

set_option autoImplicit false

namespace S3FS

/-- JavaScript string, embedded as a list of unicode scalar values. -/
abbrev JStr := List Char

def toL (s : String) : JStr := s.toList

/-! ## Character classes and primitive string operations -/

/-- The character class `[0-9a-f]` of `SHA_MATCHER`. -/
def isHexDigit (c : Char) : Bool :=
  (decide ('0' ≤ c) && decide (c ≤ '9')) || (decide ('a' ≤ c) && decide (c ≤ 'f'))

/-- A character that can occur inside a `SHA_MATCHER` match: hex digit or dash. -/
def isHexDash (c : Char) : Bool :=
  isHexDigit c || decide (c = '-')

/-- Length of the maximal run of hex digits at the head of the string. -/
def hexRun : JStr → Nat
  | [] => 0
  | c :: cs => if isHexDigit c then hexRun cs + 1 else 0

/-- Here `isPfxL nee hay` is JS `hay.startsWith(nee)` (`nee` is a leading part of `hay`). -/
def isPfxL : JStr → JStr → Bool
  | [], _ => true
  | _ :: _, [] => false
  | a :: as, b :: bs => decide (a = b) && isPfxL as bs

/-- Index of the first occurrence of `nee` in `hay`, if any (JS `indexOf` core). -/
def firstOcc (nee : JStr) : JStr → Option Nat
  | [] => if isPfxL nee [] then some 0 else none
  | c :: t => if isPfxL nee (c :: t) then some 0 else (firstOcc nee t).map (· + 1)

/-- JS `hay.indexOf(nee)`: first occurrence index, or `-1`. -/
def jsIndexOf (hay nee : JStr) : Int :=
  match firstOcc nee hay with
  | some i => (i : Int)
  | none => -1

/-- JS `hay.includes(nee)`. -/
def jsIncludes (hay nee : JStr) : Bool :=
  match hay with
  | [] => isPfxL nee []
  | c :: t => isPfxL nee (c :: t) || jsIncludes t nee

/-- JS `s.startsWith("/")`. -/
def headIsSlash : JStr → Bool
  | [] => false
  | c :: _ => decide (c = '/')

/-- JS `s.endsWith("/")`. -/
def endsSlash : JStr → Bool
  | [] => false
  | [c] => decide (c = '/')
  | _ :: c :: t => endsSlash (c :: t)

/-- JS `s.slice(a, b)` for non-negative indices. -/
def jsSlice (s : JStr) (a b : Nat) : JStr := (s.take b).drop a

/-! ## The `SHA_MATCHER` regular expression

`SHA_MATCHER = /([0-9a-f]{4,40}-[0-9a-f]{4,40}-[0-9a-f]{4,40}-[0-9a-f]{4,40}-)[0-9a-f]{4,40}/`

`matchG g s` tries to match, at the head of `s`, `g` copies of
`[0-9a-f]{4,40}-` followed by a final `[0-9a-f]{4,40}`, returning the
number of characters matched.  Greedy bounded repetition with
backtracking is implemented by `tryDown`, which attempts group lengths
from the largest candidate down to 4, exactly as the regex engine does. -/

/-- Try group lengths `l, l-1, …, 4`: take `l` hex digits, a dash, then continue. -/
def tryDown (k : JStr → Option Nat) (s : JStr) : Nat → Option Nat
  | 0 => none
  | l + 1 =>
    if l + 1 < 4 then none
    else
      let att :=
        if l + 1 ≤ hexRun s then
          match s.drop (l + 1) with
          | c :: s2 => if c = '-' then (k s2).map (fun n => (l + 1) + 1 + n) else none
          | [] => none
        else none
      match att with
      | some n => some n
      | none => tryDown k s l

/-- Match `g` dash-terminated hex groups and a final open hex group at the head. -/
def matchG : Nat → JStr → Option Nat
  | 0, s => if 4 ≤ hexRun s then some (min (hexRun s) 40) else none
  | g + 1, s => tryDown (matchG g) s (min (hexRun s) 40)

/-- Scan for the leftmost match of `SHA_MATCHER`, returning (index, length). -/
def shaFindAux : Nat → JStr → Option (Nat × Nat)
  | _, [] => none
  | j, c :: t =>
    match matchG 4 (c :: t) with
    | some n => some (j, n)
    | none => shaFindAux (j + 1) t

def shaFind (s : JStr) : Option (Nat × Nat) := shaFindAux 0 s

/-- JS `SHA_MATCHER.exec(s)` restricted to `match[0]`: the leftmost matched text. -/
def shaExec (s : JStr) : Option JStr :=
  (shaFind s).map (fun pr => (s.drop pr.1).take pr.2)

/-! ## `normalizePath` -/

def gitMark : JStr := toL ".git/"
def refsHeads : JStr := toL "refs/heads/"
def objectsLit : JStr := toL "objects"

/-- Method `S3PromisifiedFileSystem.normalizePath`, translated clause by clause:
strip one leading `/`; if `SHA_MATCHER` matches and the string does not
contain `"objects"`, rewrite to `p.slice(0, p.indexOf(".git/") + 5) ++
"refs/heads/" ++ match[0]`. -/
def normalizePath (filepath : JStr) : JStr :=
  let p := if headIsSlash filepath then filepath.drop 1 else filepath
  match shaExec p with
  | some sha =>
    if jsIncludes p objectsLit then p
    else p.take ((jsIndexOf p gitMark + 5).toNat) ++ refsHeads ++ sha
  | none => p

/-! ## UTF-8 (the `encode` / `decode` pair of `isomorphic-textencoder`)

`encode` is `TextEncoder.encode`, `decode` is `TextDecoder.decode` for
UTF-8.  Payload text is a list of unicode scalar values (`Char`), the
byte stream a `List Nat`. -/

def utf8EncodeChar (c : Char) : List Nat :=
  let n := c.toNat
  if n < 0x80 then [n]
  else if n < 0x800 then [0xC0 + n / 64, 0x80 + n % 64]
  else if n < 0x10000 then
    [0xE0 + n / 4096, 0x80 + n / 64 % 64, 0x80 + n % 64]
  else
    [0xF0 + n / 262144, 0x80 + n / 4096 % 64, 0x80 + n / 64 % 64, 0x80 + n % 64]

def utf8Encode (s : JStr) : List Nat := (s.map utf8EncodeChar).flatten

/-- U+FFFD, produced by `TextDecoder` on malformed input. -/
def repl : Char := Char.ofNat 0xFFFD

def isCont (b : Nat) : Bool := decide (0x80 ≤ b) && decide (b < 0xC0)

/-- Decode one UTF-8 unit: given the lead byte and the remaining stream,
return the decoded character together with the number of additional
bytes consumed.  A malformed unit yields the replacement character and
resynchronizes at the next byte (the exact replacement-character count
for malformed input is irrelevant to the claims, which concern decoding
valid encoder output). -/
def utf8Step (b0 : Nat) (rest : List Nat) : Char × Nat :=
  if b0 < 0x80 then (Char.ofNat b0, 0)
  else if b0 < 0xC0 then (repl, 0)
  else if b0 < 0xE0 then
    match rest with
    | b1 :: _ =>
      if isCont b1 then (Char.ofNat ((b0 - 0xC0) * 64 + (b1 - 0x80)), 1) else (repl, 0)
    | [] => (repl, 0)
  else if b0 < 0xF0 then
    match rest with
    | b1 :: b2 :: _ =>
      if isCont b1 && isCont b2 then
        (Char.ofNat ((b0 - 0xE0) * 4096 + (b1 - 0x80) * 64 + (b2 - 0x80)), 2)
      else (repl, 0)
    | _ => (repl, 0)
  else if b0 < 0xF8 then
    match rest with
    | b1 :: b2 :: b3 :: _ =>
      if isCont b1 && isCont b2 && isCont b3 then
        (Char.ofNat ((b0 - 0xF0) * 262144 + (b1 - 0x80) * 4096 + (b2 - 0x80) * 64 + (b3 - 0x80)), 3)
      else (repl, 0)
    | _ => (repl, 0)
  else (repl, 0)

def utf8Decode : List Nat → List Char
  | [] => []
  | b0 :: rest =>
    (utf8Step b0 rest).1 :: utf8Decode (rest.drop (utf8Step b0 rest).2)
termination_by l => l.length
decreasing_by
  simp only [List.length_cons]
  have := List.length_drop ((utf8Step b0 rest).2) rest
  omega

/-! ## The S3 client model

A flat key-value store.  `putObject` upserts, `deleteObject` deletes and
succeeds whether or not the key exists (S3 deletes are idempotent),
`getObject`/`headObject` fail on an absent key, `listObjects` returns
keys in lexicographic order, split into `Contents` (no delimiter past
the prefix) and `CommonPrefixes` (grouped up to the first delimiter). -/

structure ObjEntry where
  body : List Nat
  /-- Last-modified time in milliseconds (JS `Date.getTime` units). -/
  mtime : Nat
  deriving DecidableEq

abbrev S3Store := List (JStr × ObjEntry)

/-- Raw failure coming out of the S3 client. -/
inductive StoreErr where
  | noSuchKey
  deriving DecidableEq

def storeErrMsg : StoreErr → JStr
  | .noSuchKey => toL "The specified key does not exist."

def findObj? (k : JStr) : S3Store → Option ObjEntry
  | [] => none
  | (k', e) :: t => if k' = k then some e else findObj? k t

def delObj (k : JStr) : S3Store → S3Store
  | [] => []
  | (k', e) :: t => if k' = k then delObj k t else (k', e) :: delObj k t

def putObj (k : JStr) (b : List Nat) (t : Nat) (s : S3Store) : S3Store :=
  (k, ⟨b, t⟩) :: delObj k s

/-- Strict lexicographic order on keys (S3 orders keys this way). -/
def keyLt : JStr → JStr → Bool
  | [], [] => false
  | [], _ :: _ => true
  | _ :: _, [] => false
  | a :: as, b :: bs => if a < b then true else if b < a then false else keyLt as bs

def insSorted (k : JStr) : List JStr → List JStr
  | [] => [k]
  | x :: t => if keyLt k x then k :: x :: t else x :: insSorted k t

def sortKeys : List JStr → List JStr
  | [] => []
  | k :: t => insSorted k (sortKeys t)

def hasDelim : JStr → Bool
  | [] => false
  | c :: t => decide (c = '/') || hasDelim t

/-- Everything up to and including the first `/`. -/
def upToSlash : JStr → JStr
  | [] => []
  | c :: t => if c = '/' then ['/'] else c :: upToSlash t

def dedupAdj : List JStr → List JStr
  | [] => []
  | [a] => [a]
  | a :: b :: t => if a = b then dedupAdj (b :: t) else a :: dedupAdj (b :: t)

/-- All keys of the store starting with `pfx`, in lexicographic order. -/
def keysWithPfx (pfx : JStr) (s : S3Store) : List JStr :=
  sortKeys ((s.map Prod.fst).filter (fun k => isPfxL pfx k))

/-- The `listObjects({Delimiter: "/", Prefix: pfx}).Contents` channel (keys only). -/
def lsContents (pfx : JStr) (s : S3Store) : List JStr :=
  (keysWithPfx pfx s).filter (fun k => !hasDelim (k.drop pfx.length))

/-- The `listObjects({Delimiter: "/", Prefix: pfx}).CommonPrefixes` channel (prefixes only). -/
def lsCommonPfxs (pfx : JStr) (s : S3Store) : List JStr :=
  dedupAdj (((keysWithPfx pfx s).filter (fun k => hasDelim (k.drop pfx.length))).map
    (fun k => pfx ++ upToSlash (k.drop pfx.length)))

/-! ## The backend operations -/

/-- An error surfaced by a backend operation: either an `Error` the
backend constructed itself with `e.code = "ENOENT"` (carrying the
original message), or a raw store error that propagated uncaught. -/
inductive FsError where
  | enoent (msg : JStr)
  | raw (e : StoreErr)
  deriving DecidableEq

/-- Type `EncodingOpts`: `opts.encoding` may be present or absent. -/
structure EncodingOpts where
  encoding : Option JStr
  deriving DecidableEq

def utf8Lit : JStr := toL "utf8"

/-- The `string | Uint8Array` union used for file payloads. -/
inductive FileData where
  | text (s : JStr)
  | bytes (b : List Nat)
  deriving DecidableEq

inductive FKind where
  | file
  | dir
  | symlink
  deriving DecidableEq

/-- The `StatLike` record the backend synthesizes. -/
structure StatLike where
  type : FKind
  mode : Nat
  size : Nat
  ino : JStr
  mtimeMs : Nat
  deriving DecidableEq

def onlyUtf8Msg : JStr := toL "Only \"utf8\" encoding is supported in writeFile"

/-- Method `readFile`: normalize, `getObject`, decode when `opts.encoding === "utf8"`;
any store failure is re-thrown as an `ENOENT`-coded `Error`. -/
def readFile (filepath : JStr) (opts : EncodingOpts) (s : S3Store) :
    Except FsError FileData :=
  let path := normalizePath filepath
  match findObj? path s with
  | some e =>
    if opts.encoding = some utf8Lit then .ok (.text (utf8Decode e.body))
    else .ok (.bytes e.body)
  | none => .error (.enoent (storeErrMsg .noSuchKey))

/-- Method `writeFile`: normalize, encode text (only `"utf8"` is accepted; the
rejection is itself caught and surfaced with code `ENOENT`), `putObject`.
Returns the result together with the store after the call. -/
def writeFile (filepath : JStr) (input : FileData) (opts : EncodingOpts)
    (now : Nat) (s : S3Store) : Except FsError Unit × S3Store :=
  let path := normalizePath filepath
  match input with
  | .text str =>
    if opts.encoding.getD utf8Lit = utf8Lit then
      (.ok (), putObj path (utf8Encode str) now s)
    else (.error (.enoent onlyUtf8Msg), s)
  | .bytes b => (.ok (), putObj path b now s)

/-- Method `unlink`: `deleteObject` on the raw (un-normalized) path; the store
delete is idempotent, so the call always succeeds. -/
def unlink (filepath : JStr) (s : S3Store) : Except FsError Unit × S3Store :=
  (.ok (), delObj filepath s)

/-- Method `readdir`: normalize, list with delimiter `/`; push stripped common
prefixes first, then stripped non-empty content names. -/
def readdir (filepath : JStr) (s : S3Store) : Except FsError (List JStr) :=
  let path := normalizePath filepath
  let fromPfxs := (lsCommonPfxs path s).map (fun pr => jsSlice pr path.length (pr.length - 1))
  let fromContents := (lsContents path s).filterMap (fun k =>
    let file := if endsSlash k then jsSlice k path.length (k.length - 1) else k.drop path.length
    if file.length > 0 then some file else none)
  .ok (fromPfxs ++ fromContents)

/-- Method `mkdir`: unconditional `putObject` of a zero-length marker at the
normalized path with a trailing `/` appended when missing. -/
def mkdir (filepath : JStr) (now : Nat) (s : S3Store) : Except FsError Unit × S3Store :=
  let path := normalizePath filepath
  (.ok (), putObj (if endsSlash path then path else path ++ ['/']) [] now s)

/-- Method `rmdir`: `deleteObject` of the marker; note the trailing-slash test
is made on the raw `filepath` while the key is built from `path`. -/
def rmdir (filepath : JStr) (s : S3Store) : Except FsError Unit × S3Store :=
  let path := normalizePath filepath
  (.ok (), delObj (if endsSlash filepath then path else path ++ ['/']) s)

/-- Method `stat`: directory-shaped paths are synthesized from the clock with no
store call; otherwise one `headObject` probe, with failures wrapped as
`ENOENT`. -/
def stat (filepath : JStr) (now : Nat) (s : S3Store) : Except FsError StatLike :=
  if endsSlash filepath then
    .ok ⟨.dir, 0, 0, toL "0", now / 1000⟩
  else
    match findObj? filepath s with
    | some e => .ok ⟨.file, 0, e.body.length, toL "0", e.mtime / 1000⟩
    | none => .error (.enoent (storeErrMsg .noSuchKey))

/-- Method `lstat`: identical to `stat` except that the `headObject` probe is not
wrapped in `try`/`catch`, so a store failure propagates raw. -/
def lstat (filepath : JStr) (now : Nat) (s : S3Store) : Except FsError StatLike :=
  if endsSlash filepath then
    .ok ⟨.dir, 0, 0, toL "0", now / 1000⟩
  else
    match findObj? filepath s with
    | some e => .ok ⟨.file, 0, e.body.length, toL "0", e.mtime / 1000⟩
    | none => .error (.raw .noSuchKey)

/-! ## Auxiliary definitions for the claims -/

/-- Length of a datum in its stored byte form: text is UTF-8 encoded,
bytes are stored verbatim. -/
def dataBytes : FileData → List Nat
  | .text s => utf8Encode s
  | .bytes b => b

/-- The concrete store of the readdir scenario: keys a/x, a/y/z and the
marker a/ . -/
def storeC4 : S3Store :=
  [(toL "a/x", ⟨[120], 0⟩), (toL "a/y/z", ⟨[122], 0⟩), (toL "a/", ⟨[], 0⟩)]

/-- Head of the suffix is a dash (the separator check of a regex group). -/
def headDash : JStr → Bool
  | [] => false
  | c :: _ => decide (c = '-')

/-- The normalizer as claim C3 words it: the rewrite is suppressed only
when `"objects"` occurs as a whole path segment, and the root is
everything up to and including the first ".git/" marker. -/
def normalizeByClaim (filepath : JStr) : JStr :=
  let p := if headIsSlash filepath then filepath.drop 1 else filepath
  match shaExec p with
  | some sha =>
    if (List.splitOn '/' p).contains objectsLit then p
    else p.take ((jsIndexOf p gitMark + 5).toNat) ++ refsHeads ++ sha
  | none => p

/-- The amended description of the normalizer, written with spec-level
vocabulary: strip one leading separator; if the SHA pattern matches and
`"objects"` does not occur as a substring anywhere in the path, rewrite
to root ++ "refs/heads/" ++ match, where the root is everything up to
and including the first occurrence of ".git/", or the first four
characters of the stripped path when no ".git/" occurs. -/
def normalizeSpecAmended (filepath : JStr) : JStr :=
  let p := if filepath.head? = some '/' then filepath.tail else filepath
  match shaExec p with
  | some sha =>
    if decide (objectsLit <:+: p) then p
    else
      (match (List.range (p.length + 1)).find? (fun i => isPfxL gitMark (p.drop i)) with
        | some i => p.take (i + 5)
        | none => p.take 4) ++ refsHeads ++ sha
  | none => p

/-! ## Lemmas: UTF-8 roundtrip -/

theorem char_valid_bounds (c : Char) :
    c.toNat < 0xD800 ∨ (0xE000 ≤ c.toNat ∧ c.toNat < 0x110000) := by
  have h := c.valid
  have e : c.toNat = c.val.toNat := rfl
  rcases h with h | h <;> [left; right] <;> omega

theorem utf8Decode_cons (b0 : Nat) (rest : List Nat) :
    utf8Decode (b0 :: rest)
      = (utf8Step b0 rest).1 :: utf8Decode (rest.drop (utf8Step b0 rest).2) := by
  rw [utf8Decode]

theorem utf8Decode_encodeChar (c : Char) (rest : List Nat) :
    utf8Decode (utf8EncodeChar c ++ rest) = c :: utf8Decode rest := by
  have hv : c.toNat < 0x110000 := by rcases char_valid_bounds c with h | h <;> omega
  have hofn : Char.ofNat c.toNat = c := Char.ofNat_toNat c
  by_cases h1 : c.toNat < 0x80
  · have he : utf8EncodeChar c = [c.toNat] := by
      rw [utf8EncodeChar]; simp only [if_pos h1]
    rw [he, List.cons_append, List.nil_append, utf8Decode_cons]
    have hs : utf8Step c.toNat rest = (Char.ofNat c.toNat, 0) := by
      simp only [utf8Step]; rw [if_pos h1]
    rw [hs, hofn]
    rfl
  · by_cases h2 : c.toNat < 0x800
    · have he : utf8EncodeChar c = [0xC0 + c.toNat / 64, 0x80 + c.toNat % 64] := by
        rw [utf8EncodeChar]; simp only [if_neg h1, if_pos h2]
      rw [he, List.cons_append, List.cons_append, List.nil_append, utf8Decode_cons]
      have hc : isCont (0x80 + c.toNat % 64) = true := by simp only [isCont, Bool.and_eq_true, decide_eq_true_eq]; omega
      have hs : utf8Step (0xC0 + c.toNat / 64) ((0x80 + c.toNat % 64) :: rest)
          = (Char.ofNat ((0xC0 + c.toNat / 64 - 0xC0) * 64 + (0x80 + c.toNat % 64 - 0x80)), 1) := by
        simp only [utf8Step]
        rw [if_neg (by omega), if_neg (by omega), if_pos (by omega)]
        simp only [hc, if_pos]
      rw [hs]
      have harith : (0xC0 + c.toNat / 64 - 0xC0) * 64 + (0x80 + c.toNat % 64 - 0x80) = c.toNat := by
        omega
      rw [harith, hofn]
      rfl
    · by_cases h3 : c.toNat < 0x10000
      · have he : utf8EncodeChar c
            = [0xE0 + c.toNat / 4096, 0x80 + c.toNat / 64 % 64, 0x80 + c.toNat % 64] := by
          rw [utf8EncodeChar]; simp only [if_neg h1, if_neg h2, if_pos h3]
        rw [he, List.cons_append, List.cons_append, List.cons_append, List.nil_append,
          utf8Decode_cons]
        have hc1 : isCont (0x80 + c.toNat / 64 % 64) = true := by simp only [isCont, Bool.and_eq_true, decide_eq_true_eq]; omega
        have hc2 : isCont (0x80 + c.toNat % 64) = true := by simp only [isCont, Bool.and_eq_true, decide_eq_true_eq]; omega
        have hs : utf8Step (0xE0 + c.toNat / 4096)
              ((0x80 + c.toNat / 64 % 64) :: (0x80 + c.toNat % 64) :: rest)
            = (Char.ofNat ((0xE0 + c.toNat / 4096 - 0xE0) * 4096
                + (0x80 + c.toNat / 64 % 64 - 0x80) * 64 + (0x80 + c.toNat % 64 - 0x80)), 2) := by
          simp only [utf8Step]
          rw [if_neg (by omega), if_neg (by omega), if_neg (by omega), if_pos (by omega)]
          simp only [hc1, hc2, Bool.and_self, if_pos]
        rw [hs]
        have harith : (0xE0 + c.toNat / 4096 - 0xE0) * 4096
            + (0x80 + c.toNat / 64 % 64 - 0x80) * 64 + (0x80 + c.toNat % 64 - 0x80) = c.toNat := by
          omega
        rw [harith, hofn]
        rfl
      · have he : utf8EncodeChar c = [0xF0 + c.toNat / 262144, 0x80 + c.toNat / 4096 % 64,
            0x80 + c.toNat / 64 % 64, 0x80 + c.toNat % 64] := by
          rw [utf8EncodeChar]; simp only [if_neg h1, if_neg h2, if_neg h3]
        rw [he, List.cons_append, List.cons_append, List.cons_append, List.cons_append,
          List.nil_append, utf8Decode_cons]
        have hc1 : isCont (0x80 + c.toNat / 4096 % 64) = true := by simp only [isCont, Bool.and_eq_true, decide_eq_true_eq]; omega
        have hc2 : isCont (0x80 + c.toNat / 64 % 64) = true := by simp only [isCont, Bool.and_eq_true, decide_eq_true_eq]; omega
        have hc3 : isCont (0x80 + c.toNat % 64) = true := by simp only [isCont, Bool.and_eq_true, decide_eq_true_eq]; omega
        have hs : utf8Step (0xF0 + c.toNat / 262144) ((0x80 + c.toNat / 4096 % 64)
              :: (0x80 + c.toNat / 64 % 64) :: (0x80 + c.toNat % 64) :: rest)
            = (Char.ofNat ((0xF0 + c.toNat / 262144 - 0xF0) * 262144
                + (0x80 + c.toNat / 4096 % 64 - 0x80) * 4096
                + (0x80 + c.toNat / 64 % 64 - 0x80) * 64 + (0x80 + c.toNat % 64 - 0x80)), 3) := by
          simp only [utf8Step]
          rw [if_neg (by omega), if_neg (by omega), if_neg (by omega), if_neg (by omega),
            if_pos (by omega)]
          simp only [hc1, hc2, hc3, Bool.and_self, if_pos]
        rw [hs]
        have harith : (0xF0 + c.toNat / 262144 - 0xF0) * 262144
            + (0x80 + c.toNat / 4096 % 64 - 0x80) * 4096
            + (0x80 + c.toNat / 64 % 64 - 0x80) * 64 + (0x80 + c.toNat % 64 - 0x80) = c.toNat := by
          omega
        rw [harith, hofn]
        rfl

theorem utf8Decode_encode (s : JStr) : utf8Decode (utf8Encode s) = s := by
  induction s with
  | nil => show utf8Decode [] = []; rw [utf8Decode]
  | cons c t ih =>
    show utf8Decode ((utf8EncodeChar c :: t.map utf8EncodeChar).flatten) = c :: t
    rw [List.flatten_cons, utf8Decode_encodeChar]
    exact congrArg (c :: ·) ih

/-! ## Store lemmas -/

theorem findObj?_delObj_self (k : JStr) (s : S3Store) : findObj? k (delObj k s) = none := by
  induction s with
  | nil => rfl
  | cons kv t ih =>
    obtain ⟨k', e⟩ := kv
    by_cases h : k' = k
    · simp only [delObj, if_pos h, ih]
    · simp only [delObj, if_neg h, findObj?, if_neg h, ih]

theorem findObj?_putObj_self (k : JStr) (b : List Nat) (t : Nat) (s : S3Store) :
    findObj? k (putObj k b t s) = some ⟨b, t⟩ := by
  simp [putObj, findObj?]



/-! ## C1 -/

/-- C1: writing a datum and reading it back through the same path and the
same encoding option returns it unchanged — text written and read with
encoding `"utf8"` decodes back to the same string, and bytes written and
read without the `"utf8"` option are returned verbatim — for every
non-directory path, including ones the normalizer rewrites, because
`writeFile` and `readFile` apply the same normalization. -/
theorem c1_roundtrip (p : JStr) (opts : EncodingOpts) (now : Nat) (s : S3Store)
    (_hdir : endsSlash p = false) :
    (∀ str s', opts.encoding = some utf8Lit →
      writeFile p (.text str) opts now s = (.ok (), s') →
      readFile p opts s' = .ok (.text str)) ∧
    (∀ b s', opts.encoding ≠ some utf8Lit →
      writeFile p (.bytes b) opts now s = (.ok (), s') →
      readFile p opts s' = .ok (.bytes b)) := by
  constructor
  · intro str s' henc hw
    rw [writeFile] at hw
    simp only [henc, Option.getD_some, if_true, Prod.mk.injEq] at hw
    rw [readFile, ← hw.2, findObj?_putObj_self]
    simp [henc, utf8Decode_encode]
  · intro b s' henc hw
    rw [writeFile] at hw
    simp only [Prod.mk.injEq] at hw
    rw [readFile, ← hw.2, findObj?_putObj_self]
    simp [henc]

theorem c1_roundtrip_witness :
    endsSlash (toL "p") = false ∧
    readFile (toL "p") ⟨some utf8Lit⟩
      (writeFile (toL "p") (.text (toL "hi")) ⟨some utf8Lit⟩ 0 []).2 = .ok (.text (toL "hi")) :=
  ⟨rfl, (c1_roundtrip (toL "p") ⟨some utf8Lit⟩ 0 [] rfl).1 (toL "hi") _ rfl rfl⟩

/-! ## C2 -/

/-- C2 counterexample: `writeFile` stores under the normalized path but
`stat` probes the raw path, so after writing at "/a" (stored at "a"),
`stat("/a")` fails with a wrapped not-found error instead of reporting a
file of size 3. -/
theorem c2_cx :
    stat (toL "/a") 7 (writeFile (toL "/a") (.bytes [1, 2, 3]) ⟨none⟩ 5 []).2
      = .error (.enoent (storeErrMsg .noSuchKey)) := rfl

/-- C2 amended: after a successful `writeFile(p, d)`, `stat(p)` reports
kind file and size equal to the stored byte length of `d` — provided `p`
is left unchanged by path normalization (stat does not normalize) and
does not end in the separator (stat synthesizes a directory for those). -/
theorem c2_amended (p : JStr) (d : FileData) (opts : EncodingOpts)
    (now now2 : Nat) (s s' : S3Store)
    (hnorm : normalizePath p = p) (hdir : endsSlash p = false)
    (hw : writeFile p d opts now s = (.ok (), s')) :
    stat p now2 s' = .ok ⟨.file, 0, (dataBytes d).length, toL "0", now / 1000⟩ := by
  cases d with
  | text str =>
    rw [writeFile] at hw
    by_cases henc : opts.encoding.getD utf8Lit = utf8Lit
    · simp only [henc, if_true, Prod.mk.injEq] at hw
      rw [stat, if_neg (by rw [hdir]; exact fun h => Bool.noConfusion h), ← hw.2, hnorm,
        findObj?_putObj_self]
      rfl
    · simp only [henc, if_false, Prod.mk.injEq] at hw
      exact absurd hw.1.symm (by intro h; exact Except.noConfusion h)
  | bytes b =>
    rw [writeFile] at hw
    simp only [Prod.mk.injEq] at hw
    rw [stat, if_neg (by rw [hdir]; exact fun h => Bool.noConfusion h), ← hw.2, hnorm,
      findObj?_putObj_self]
    rfl

theorem c2_amended_witness :
    stat (toL "p") 9 (writeFile (toL "p") (.bytes [1, 2]) ⟨none⟩ 5000 []).2
      = .ok ⟨.file, 0, 2, toL "0", 5⟩ :=
  c2_amended (toL "p") (.bytes [1, 2]) ⟨none⟩ 5000 9 [] _ (by decide) (by decide) rfl

/-! ## C4 -/

/-- C4 counterexample: with keys a/x, a/y/z and the marker a/ in the
store, `readdir("a/")` returns ["y", "x"] — common-prefix names are
pushed before content names, so the result is not in lexicographic
order. -/
theorem c4_cx :
    readdir (toL "a/") storeC4 = .ok [toL "y", toL "x"] ∧
    [toL "y", toL "x"] ≠ [toL "x", toL "y"] := ⟨rfl, by decide⟩

/-- C4 amended: with keys a/x, a/y/z and the marker a/ in the store,
`readdir("a/")` returns exactly ["y", "x"]: the marker is excluded and
names are stripped of the parent prefix, but subdirectory names coming
from the common-prefix channel precede file names from the contents
channel, so the global order is not lexicographic. -/
theorem c4_amended : readdir (toL "a/") storeC4 = .ok [toL "y", toL "x"] := rfl

/-! ## C5 -/

/-- C5 counterexample: `lstat` has no try/catch, so the raw store error
of the failed metadata probe propagates to the caller untranslated. -/
theorem c5_cx : lstat (toL "x") 0 [] = .error (.raw .noSuchKey) := rfl

/-- C5 amended: `readFile`, `writeFile`, `unlink`, `readdir` and `stat`
surface only the wrapped not-found kind (code ENOENT) — for `unlink`,
`readdir`, `mkdir` and `rmdir` no failure can surface at all since the
store's delete/list/put calls succeed — but `lstat` is not wrapped and
propagates the raw store error. -/
theorem c5_amended :
    (∀ fp opts s e, readFile fp opts s = .error e → ∃ m, e = .enoent m) ∧
    (∀ fp d opts now s e, (writeFile fp d opts now s).1 = .error e → ∃ m, e = .enoent m) ∧
    (∀ fp s, (unlink fp s).1 = .ok ()) ∧
    (∀ fp s e, readdir fp s = .error e → ∃ m, e = .enoent m) ∧
    (∀ fp now s e, stat fp now s = .error e → ∃ m, e = .enoent m) ∧
    (∀ fp now s, (mkdir fp now s).1 = .ok ()) ∧
    (∀ fp s, (rmdir fp s).1 = .ok ()) ∧
    (∀ fp now s e, lstat fp now s = .error e → e = .raw .noSuchKey) := by
  refine ⟨?_, ?_, ?_, ?_, ?_, ?_, ?_, ?_⟩
  · intro fp opts s e h
    rw [readFile] at h
    cases hf : findObj? (normalizePath fp) s with
    | some o =>
      rw [hf] at h
      by_cases he : opts.encoding = some utf8Lit <;> simp [he] at h
    | none =>
      rw [hf] at h
      exact ⟨storeErrMsg .noSuchKey, (Except.error.injEq _ _ ▸ h).symm⟩
  · intro fp d opts now s e h
    cases d with
    | text str =>
      rw [writeFile] at h
      by_cases he : opts.encoding.getD utf8Lit = utf8Lit <;> simp [he] at h
      exact ⟨onlyUtf8Msg, h.symm⟩
    | bytes b => simp [writeFile] at h
  · intro fp s; rfl
  · intro fp s e h; simp [readdir] at h
  · intro fp now s e h
    rw [stat] at h
    by_cases hd : endsSlash fp
    · simp [hd] at h
    · rw [if_neg hd] at h
      cases hf : findObj? fp s with
      | some o => rw [hf] at h; exact Except.noConfusion h
      | none =>
        rw [hf] at h
        exact ⟨storeErrMsg .noSuchKey, (Except.error.injEq _ _ ▸ h).symm⟩
  · intro fp now s; rfl
  · intro fp s; rfl
  · intro fp now s e h
    rw [lstat] at h
    by_cases hd : endsSlash fp
    · simp [hd] at h
    · rw [if_neg hd] at h
      cases hf : findObj? fp s with
      | some o => rw [hf] at h; exact Except.noConfusion h
      | none => rw [hf] at h; exact ((Except.error.injEq _ _ ▸ h)).symm

theorem c5_amended_witness :
    ∃ m, FsError.enoent (storeErrMsg StoreErr.noSuchKey) = .enoent m :=
  c5_amended.1 (toL "x") ⟨none⟩ [] (.enoent (storeErrMsg .noSuchKey)) rfl

/-! ## C6 -/

/-- C6 counterexample: `mkdir` is an unconditional `putObject`: it
succeeds even when the marker already exists (no AlreadyExists failure),
and the marker key is built from the normalized path, not the raw one
("/b" produces key "b/"). -/
theorem c6_cx :
    (mkdir (toL "a") 3 [(toL "a/", ⟨[], 0⟩)]).1 = Except.ok () ∧
    (mkdir (toL "/b") 3 []).2 = [(toL "b/", ⟨[], 3⟩)] := ⟨rfl, rfl⟩

/-- C6 amended: for every path `p`, `mkdir(p)` always succeeds, upserting
a zero-length marker object at `normalize(p) + "/"` (the separator
appended only when the normalized path does not already end in one); an
existing marker is silently overwritten rather than reported as
AlreadyExists. -/
theorem c6_amended (p : JStr) (now : Nat) (s : S3Store) :
    (mkdir p now s).1 = Except.ok () ∧
    findObj?
      (if endsSlash (normalizePath p) then normalizePath p else normalizePath p ++ ['/'])
      (mkdir p now s).2 = some ⟨[], now⟩ := by
  refine ⟨rfl, ?_⟩
  rw [mkdir]
  exact findObj?_putObj_self _ [] now s

/-! ## C7 -/

/-- C7 counterexample: requesting a non-utf8 textual encoding makes
`writeFile` throw, but its own catch block rebrands the error with code
ENOENT — the surfaced kind is exactly the not-found kind, not a distinct
configuration kind. -/
theorem c7_cx :
    (writeFile (toL "q") (.text (toL "x")) ⟨some (toL "latin1")⟩ 0 []).1
      = .error (.enoent onlyUtf8Msg) := rfl

/-- C7 amended: requesting a textual encoding other than "utf8" makes
`writeFile` fail before any store call — the store is left unchanged —
but the surfaced error carries code ENOENT (the same code as not-found),
with only its message ("Only \"utf8\" encoding is supported in
writeFile") telling the configuration failure apart. -/
theorem c7_amended (p str enc : JStr) (now : Nat) (s : S3Store)
    (henc : enc ≠ utf8Lit) :
    writeFile p (.text str) ⟨some enc⟩ now s = (.error (.enoent onlyUtf8Msg), s) := by
  rw [writeFile]
  simp only [Option.getD_some, if_neg henc]

theorem c7_amended_witness :
    writeFile (toL "q") (.text (toL "x")) ⟨some (toL "latin1")⟩ 0 []
      = (.error (.enoent onlyUtf8Msg), []) :=
  c7_amended (toL "q") (toL "x") (toL "latin1") 0 [] (by decide)

/-! ## C8 -/

/-- C8 counterexample: `unlink` on a path with no object succeeds (the
store delete is idempotent, and the catch never fires), and because
`unlink` does not normalize while `writeFile` does, the sequence
writeFile("/a", d) → unlink("/a") → readFile("/a") deletes the wrong key
and readFile still returns the datum instead of failing NotFound. -/
theorem c8_cx :
    (unlink (toL "nope") []).1 = Except.ok () ∧
    readFile (toL "/a") ⟨none⟩
      (unlink (toL "/a") (writeFile (toL "/a") (.bytes [1]) ⟨none⟩ 0 []).2).2
      = .ok (.bytes [1]) := ⟨rfl, rfl⟩

/-- C8 amended: `unlink` never fails (it deletes the raw key and the
store delete succeeds on absent keys); for paths that normalization
leaves unchanged, writeFile → unlink → readFile does end with a wrapped
not-found failure, the unlink removing exactly the object the write
created. -/
theorem c8_amended (p : JStr) (d : FileData) (opts : EncodingOpts)
    (now : Nat) (s s₁ : S3Store)
    (hnorm : normalizePath p = p)
    (hw : writeFile p d opts now s = (.ok (), s₁)) :
    (unlink p s₁).1 = Except.ok () ∧
    readFile p opts (unlink p s₁).2 = .error (.enoent (storeErrMsg .noSuchKey)) := by
  refine ⟨rfl, ?_⟩
  have hs₁ : s₁ = putObj p (dataBytes d) now s := by
    cases d with
    | text str =>
      rw [writeFile] at hw
      by_cases he : opts.encoding.getD utf8Lit = utf8Lit
      · simp only [he, if_true, Prod.mk.injEq, hnorm] at hw
        exact hw.2.symm
      · simp only [he, if_false, Prod.mk.injEq] at hw
        exact absurd hw.1.symm (fun h => Except.noConfusion h)
    | bytes b =>
      rw [writeFile] at hw
      simp only [Prod.mk.injEq, hnorm] at hw
      exact hw.2.symm
  rw [readFile, hnorm]
  show (match findObj? p (delObj p s₁) with
    | some e =>
      if opts.encoding = some utf8Lit then Except.ok (FileData.text (utf8Decode e.body))
      else Except.ok (FileData.bytes e.body)
    | none => Except.error (FsError.enoent (storeErrMsg StoreErr.noSuchKey))) = _
  rw [findObj?_delObj_self]

theorem c8_amended_witness :
    (unlink (toL "p") (writeFile (toL "p") (.bytes [7]) ⟨none⟩ 0 []).2).1 = Except.ok () ∧
    readFile (toL "p") ⟨none⟩
      (unlink (toL "p") (writeFile (toL "p") (.bytes [7]) ⟨none⟩ 0 []).2).2
      = .error (.enoent (storeErrMsg .noSuchKey)) :=
  c8_amended (toL "p") (.bytes [7]) ⟨none⟩ 0 [] _ rfl rfl

/-! ## C10 -/

/-- C10: whenever they succeed, `stat` and `lstat` return identical
records (same kind, mode 0, same size, identity "0", same modTime
computation) — indeed each succeeds exactly when the other does — and
neither ever reports the symlink kind admitted by the record type. -/
theorem c10_stat_lstat (fp : JStr) (now : Nat) (s : S3Store) (r : StatLike) :
    (stat fp now s = .ok r ↔ lstat fp now s = .ok r) ∧
    (stat fp now s = .ok r → r.type ≠ .symlink) := by
  rw [stat, lstat]
  by_cases hd : endsSlash fp
  · rw [if_pos hd, if_pos hd]
    refine ⟨Iff.rfl, fun h => ?_⟩
    have : r = ⟨.dir, 0, 0, toL "0", now / 1000⟩ := (Except.ok.injEq _ _ ▸ h).symm
    rw [this]
    intro hk
    exact FKind.noConfusion hk
  · rw [if_neg hd, if_neg hd]
    cases hf : findObj? fp s with
    | some e =>
      refine ⟨Iff.rfl, fun h => ?_⟩
      have : r = ⟨.file, 0, e.body.length, toL "0", e.mtime / 1000⟩ :=
        (Except.ok.injEq _ _ ▸ h).symm
      rw [this]
      intro hk
      exact FKind.noConfusion hk
    | none =>
      refine ⟨⟨fun h => Except.noConfusion h, fun h => Except.noConfusion h⟩,
        fun h => Except.noConfusion h⟩

theorem c10_stat_lstat_witness :
    lstat (toL "a/") 2000 [] = .ok ⟨.dir, 0, 0, toL "0", 2⟩ :=
  (c10_stat_lstat (toL "a/") 2000 [] ⟨.dir, 0, 0, toL "0", 2⟩).1.mp rfl

theorem hexRun_le_length (s : JStr) : hexRun s ≤ s.length := by
  induction s with
  | nil => exact Nat.le_refl 0
  | cons c t ih =>
    rw [hexRun]
    by_cases h : isHexDigit c
    · rw [if_pos h]; exact Nat.succ_le_succ ih
    · rw [if_neg h]; exact Nat.zero_le _

theorem drop_lt_hexRun (s : JStr) (l : Nat) (h : l < hexRun s) :
    ∃ c t, s.drop l = c :: t ∧ isHexDigit c = true := by
  induction s generalizing l with
  | nil => simp [hexRun] at h
  | cons c t ih =>
    rw [hexRun] at h
    by_cases hc : isHexDigit c
    · rw [if_pos hc] at h
      cases l with
      | zero => exact ⟨c, t, rfl, hc⟩
      | succ l' => exact ih l' (Nat.lt_of_succ_lt_succ h)
    · rw [if_neg hc] at h
      exact absurd h (Nat.not_lt_zero _)

theorem headDash_drop_hexRun_ne (s : JStr) (l : Nat) (h : l < hexRun s) :
    headDash (s.drop l) = false := by
  obtain ⟨c, t, he, hc⟩ := drop_lt_hexRun s l h
  rw [he]
  show decide (c = '-') = false
  have hne : c ≠ '-' := by
    intro hh
    rw [hh] at hc
    exact absurd hc (by decide)
  simp [hne]

/-- The backtracking countdown resolves deterministically: within the
hex run only the full run can be followed by the required dash. -/
theorem tryDown_eq (k : JStr → Option Nat) (s : JStr) (l : Nat) (hl : l ≤ hexRun s) :
    tryDown k s l =
      if 4 ≤ l ∧ l = hexRun s ∧ headDash (s.drop l) = true then
        (k (s.drop (l + 1))).map (fun n => l + 1 + n)
      else none := by
  induction l with
  | zero =>
    rw [tryDown]
    rw [if_neg (by omega)]
  | succ l' ih =>
    rw [tryDown]
    by_cases h4 : l' + 1 < 4
    · rw [if_pos h4, if_neg (by omega)]
    · rw [if_neg h4]
      cases hdr : s.drop (l' + 1) with
      | nil =>
        simp only [if_pos hl, hdr]
        rw [ih (by omega)]
        by_cases heq : l' + 1 = hexRun s
        · rw [if_neg (by omega), if_neg (by
            intro hco
            exact absurd hco.2.2 (by decide))]
        · rw [if_neg (by omega), if_neg (by intro hco; omega)]
      | cons c s2 =>
        by_cases hdash : c = '-'
        · by_cases heq : l' + 1 = hexRun s
          · -- full run followed by a dash: this attempt decides everything
            simp only [if_pos hl, hdr, if_pos hdash]
            have hdrop2 : s.drop (l' + 1 + 1) = s2 := by
              rw [← List.drop_drop, hdr, hdash]
              rfl
            rw [if_pos ⟨by omega, heq, by rw [hdash]; rfl⟩, hdrop2]
            cases hk : k s2 with
            | some n => rfl
            | none =>
              show tryDown k s l' = none
              rw [ih (by omega), if_neg (by intro hco; omega)]
          · have hfalse := headDash_drop_hexRun_ne s (l' + 1) (by omega)
            rw [hdr, hdash] at hfalse
            have htrue : headDash ('-' :: s2) = true := rfl
            rw [hfalse] at htrue
            exact Bool.noConfusion htrue
        · -- the char after the candidate group is not a dash: attempt fails
          simp only [if_pos hl, hdr, if_neg hdash]
          rw [ih (by omega)]
          by_cases heq : l' + 1 = hexRun s
          · rw [if_neg (by omega), if_neg (by
              intro hco
              exact hdash (of_decide_eq_true hco.2.2))]
          · rw [if_neg (by omega), if_neg (by intro hco; omega)]

/-- Deterministic characterization of one dash-terminated group followed
by the rest of the pattern. -/
theorem matchG_succ_eq (g : Nat) (s : JStr) :
    matchG (g + 1) s =
      if 4 ≤ hexRun s ∧ hexRun s ≤ 40 ∧ headDash (s.drop (hexRun s)) = true then
        (matchG g (s.drop (hexRun s + 1))).map (fun n => hexRun s + 1 + n)
      else none := by
  rw [matchG]
  by_cases hle : hexRun s ≤ 40
  · rw [min_eq_left hle, tryDown_eq _ _ _ (Nat.le_refl _)]
    by_cases hco : 4 ≤ hexRun s ∧ hexRun s = hexRun s ∧ headDash (s.drop (hexRun s)) = true
    · rw [if_pos hco, if_pos ⟨hco.1, hle, hco.2.2⟩]
    · rw [if_neg hco, if_neg (by intro h; exact hco ⟨h.1, rfl, h.2.2⟩)]
  · rw [min_eq_right (by omega), tryDown_eq _ _ _ (by omega)]
    rw [if_neg (by omega), if_neg (by omega)]

theorem matchG_zero_eq (s : JStr) :
    matchG 0 s = if 4 ≤ hexRun s then some (min (hexRun s) 40) else none := rfl

theorem matchG_le_length (g : Nat) (s : JStr) (n : Nat) (h : matchG g s = some n) :
    n ≤ s.length := by
  induction g generalizing s n with
  | zero =>
    rw [matchG_zero_eq] at h
    by_cases h4 : 4 ≤ hexRun s
    · rw [if_pos h4] at h
      have := hexRun_le_length s
      have hn : n = min (hexRun s) 40 := (Option.some.injEq _ _ ▸ h).symm
      omega
    · rw [if_neg h4] at h
      exact Option.noConfusion h
  | succ g ih =>
    rw [matchG_succ_eq] at h
    by_cases hco : 4 ≤ hexRun s ∧ hexRun s ≤ 40 ∧ headDash (s.drop (hexRun s)) = true
    · rw [if_pos hco] at h
      cases hm : matchG g (s.drop (hexRun s + 1)) with
      | none => rw [hm] at h; exact Option.noConfusion h
      | some n' =>
        rw [hm] at h
        have hlen := ih _ _ hm
        rw [List.length_drop] at hlen
        have hrl := hexRun_le_length s
        have hn : n = hexRun s + 1 + n' := (Option.some.injEq _ _ ▸ h).symm
        -- the dash witness forces the run to end strictly inside s
        have hlt : hexRun s < s.length := by
          by_contra hge
          have : s.drop (hexRun s) = [] := List.drop_eq_nil_of_le (by omega)
          rw [this] at hco
          exact absurd hco.2.2 (by decide)
        omega
    · rw [if_neg hco] at h
      exact Option.noConfusion h

theorem matchG_lower (g : Nat) (s : JStr) (n : Nat) (h : matchG g s = some n) :
    5 * g + 4 ≤ n := by
  induction g generalizing s n with
  | zero =>
    rw [matchG_zero_eq] at h
    by_cases h4 : 4 ≤ hexRun s
    · rw [if_pos h4] at h
      have hn : n = min (hexRun s) 40 := (Option.some.injEq _ _ ▸ h).symm
      omega
    · rw [if_neg h4] at h
      exact Option.noConfusion h
  | succ g ih =>
    rw [matchG_succ_eq] at h
    by_cases hco : 4 ≤ hexRun s ∧ hexRun s ≤ 40 ∧ headDash (s.drop (hexRun s)) = true
    · rw [if_pos hco] at h
      cases hm : matchG g (s.drop (hexRun s + 1)) with
      | none => rw [hm] at h; exact Option.noConfusion h
      | some n' =>
        rw [hm] at h
        have := ih _ _ hm
        have hn : n = hexRun s + 1 + n' := (Option.some.injEq _ _ ▸ h).symm
        have h4 := hco.1
        omega
    · rw [if_neg hco] at h
      exact Option.noConfusion h

/-! ## Block locality: a match inspects only the maximal hex/dash block -/

theorem hexRun_takeWhile (s : JStr) :
    hexRun (s.takeWhile isHexDash) = hexRun s := by
  induction s with
  | nil => rfl
  | cons c t ih =>
    by_cases hc : isHexDigit c
    · have hcd : isHexDash c = true := by rw [isHexDash, hc]; rfl
      rw [List.takeWhile_cons_of_pos hcd, hexRun, hexRun, if_pos hc, if_pos hc, ih]
    · rw [hexRun, if_neg hc]
      by_cases hd : isHexDash c = true
      · rw [List.takeWhile_cons_of_pos hd, hexRun, if_neg hc]
      · rw [List.takeWhile_cons_of_neg hd]
        rfl

theorem headDash_takeWhile (s : JStr) :
    headDash ((s.takeWhile isHexDash).drop (hexRun s)) = headDash (s.drop (hexRun s)) := by
  induction s with
  | nil => rfl
  | cons c t ih =>
    by_cases hc : isHexDigit c
    · have hcd : isHexDash c = true := by rw [isHexDash, hc]; rfl
      rw [List.takeWhile_cons_of_pos hcd, hexRun, if_pos hc]
      show headDash ((t.takeWhile isHexDash).drop (hexRun t)) = headDash (t.drop (hexRun t))
      exact ih
    · rw [hexRun, if_neg hc, List.drop_zero, List.drop_zero]
      by_cases hd : isHexDash c = true
      · rw [List.takeWhile_cons_of_pos hd]
        show decide (c = '-') = decide (c = '-')
        rfl
      · rw [List.takeWhile_cons_of_neg hd]
        show false = decide (c = '-')
        have : c ≠ '-' := by
          intro h
          exact hd (by rw [h]; rfl)
        simp [this]

theorem takeWhile_drop_run (s : JStr) (h : headDash (s.drop (hexRun s)) = true) :
    (s.takeWhile isHexDash).drop (hexRun s + 1) = (s.drop (hexRun s + 1)).takeWhile isHexDash := by
  induction s with
  | nil => exact absurd h (by decide)
  | cons c t ih =>
    by_cases hc : isHexDigit c
    · have hcd : isHexDash c = true := by rw [isHexDash, hc]; rfl
      rw [hexRun, if_pos hc] at h ⊢
      rw [List.takeWhile_cons_of_pos hcd]
      show (t.takeWhile isHexDash).drop (hexRun t + 1) = (t.drop (hexRun t + 1)).takeWhile isHexDash
      exact ih (by simpa using h)
    · rw [hexRun, if_neg hc] at h ⊢
      rw [List.drop_zero] at h
      have hdash : c = '-' := of_decide_eq_true h
      have hcd : isHexDash c = true := by rw [isHexDash, hdash]; rfl
      rw [List.takeWhile_cons_of_pos hcd]
      rfl

/-- A match is a function of the maximal hex/dash block at the head. -/
theorem matchG_takeWhile (g : Nat) (s : JStr) :
    matchG g (s.takeWhile isHexDash) = matchG g s := by
  induction g generalizing s with
  | zero => rw [matchG_zero_eq, matchG_zero_eq, hexRun_takeWhile]
  | succ g ih =>
    rw [matchG_succ_eq, matchG_succ_eq, hexRun_takeWhile, headDash_takeWhile]
    by_cases hco : 4 ≤ hexRun s ∧ hexRun s ≤ 40 ∧ headDash (s.drop (hexRun s)) = true
    · rw [if_pos hco, if_pos hco, takeWhile_drop_run s hco.2.2, ih]
    · rw [if_neg hco, if_neg hco]

theorem matchG_transfer (g : Nat) (s₁ s₂ : JStr)
    (h : s₁.takeWhile isHexDash = s₂.takeWhile isHexDash) :
    matchG g s₁ = matchG g s₂ := by
  rw [← matchG_takeWhile g s₁, h, matchG_takeWhile]

theorem matchG_le_block (g : Nat) (s : JStr) (n : Nat) (h : matchG g s = some n) :
    n ≤ (s.takeWhile isHexDash).length := by
  have hb : matchG g (s.takeWhile isHexDash) = some n := by rw [matchG_takeWhile]; exact h
  exact matchG_le_length _ _ _ hb

/-- A block shorter than the 24-character minimum admits no match. -/
theorem matchG_none_of_short_block (s : JStr)
    (h : (s.takeWhile isHexDash).length < 24) : matchG 4 s = none := by
  cases hm : matchG 4 s with
  | none => rfl
  | some n =>
    have h1 := matchG_le_block 4 s n hm
    have h2 := matchG_lower 4 s n hm
    omega

theorem hexRun_take (s : JStr) (m : Nat) : hexRun (s.take m) = min m (hexRun s) := by
  induction s generalizing m with
  | nil => simp [hexRun]
  | cons c t ih =>
    cases m with
    | zero => simp [hexRun]
    | succ m' =>
      rw [List.take_succ_cons]
      by_cases hc : isHexDigit c
      · rw [hexRun, if_pos hc, hexRun, if_pos hc, ih]
        omega
      · rw [hexRun, if_neg hc, hexRun, if_neg hc]
        omega

/-- A successful match still matches when the string is cut at the match end. -/
theorem matchG_take (g : Nat) (s : JStr) (n : Nat) (h : matchG g s = some n) :
    matchG g (s.take n) = some n := by
  induction g generalizing s n with
  | zero =>
    rw [matchG_zero_eq] at h
    by_cases h4 : 4 ≤ hexRun s
    · rw [if_pos h4] at h
      have hn : n = min (hexRun s) 40 := (Option.some.injEq _ _ ▸ h).symm
      rw [matchG_zero_eq, hexRun_take]
      rw [if_pos (by omega)]
      congr 1
      omega
    · rw [if_neg h4] at h
      exact Option.noConfusion h
  | succ g ih =>
    rw [matchG_succ_eq] at h
    by_cases hco : 4 ≤ hexRun s ∧ hexRun s ≤ 40 ∧ headDash (s.drop (hexRun s)) = true
    · rw [if_pos hco] at h
      cases hm : matchG g (s.drop (hexRun s + 1)) with
      | none => rw [hm] at h; exact Option.noConfusion h
      | some n' =>
        rw [hm] at h
        have hn : n = hexRun s + 1 + n' := (Option.some.injEq _ _ ▸ h).symm
        have hrun_take : hexRun (s.take n) = hexRun s := by
          rw [hexRun_take]; omega
        obtain ⟨rest, hrest⟩ : ∃ rest, s.drop (hexRun s) = '-' :: rest := by
          cases hdr : s.drop (hexRun s) with
          | nil => rw [hdr] at hco; exact absurd hco.2.2 (by decide)
          | cons c r =>
            rw [hdr] at hco
            exact ⟨r, by rw [of_decide_eq_true hco.2.2]⟩
        have hdrop_take : (s.take n).drop (hexRun s) = (s.drop (hexRun s)).take (n - hexRun s) :=
          List.drop_take _ _ _
        rw [matchG_succ_eq, hrun_take, hdrop_take, hrest]
        have hn_run : n - hexRun s = n' + 1 := by omega
        rw [hn_run]
        rw [if_pos ⟨hco.1, hco.2.1, by rw [List.take_succ_cons]; rfl⟩]
        have hdrop1_take : (s.take n).drop (hexRun s + 1) = (s.drop (hexRun s + 1)).take n' := by
          rw [List.drop_take _ _ _]
          congr 1
          omega
        rw [hdrop1_take, ih _ _ hm]
        show some (hexRun s + 1 + n') = some n
        rw [hn]
    · rw [if_neg hco] at h
      exact Option.noConfusion h

theorem take_of_le_takeWhile (f : Char → Bool) (s : JStr) (n : Nat)
    (h : n ≤ (s.takeWhile f).length) : s.take n = (s.takeWhile f).take n := by
  conv_lhs => rw [← List.takeWhile_append_dropWhile f s]
  rw [List.take_append_of_le_length h]

theorem matched_isHexDash (s : JStr) (n : Nat) (h : matchG 4 s = some n) :
    ∀ c ∈ s.take n, isHexDash c = true := by
  intro c hc
  have hb := matchG_le_block 4 s n h
  rw [take_of_le_takeWhile isHexDash s n hb] at hc
  exact List.mem_takeWhile_imp (List.mem_of_mem_take hc)

/-! ## The leftmost-match scan -/

theorem matchG4_nil : matchG 4 ([] : JStr) = none := by decide

theorem shaFindAux_spec (s : JStr) (j i n : Nat)
    (h : shaFindAux j s = some (i, n)) :
    j ≤ i ∧ matchG 4 (s.drop (i - j)) = some n ∧ ∀ e < i - j, matchG 4 (s.drop e) = none := by
  induction s generalizing j with
  | nil => simp [shaFindAux] at h
  | cons c t ih =>
    rw [shaFindAux] at h
    cases hm : matchG 4 (c :: t) with
    | some n0 =>
      rw [hm] at h
      have hin : i = j ∧ n0 = n := by
        have := (Option.some.injEq _ _ ▸ h)
        exact ⟨(Prod.mk.injEq _ _ _ _ ▸ this).1.symm, (Prod.mk.injEq _ _ _ _ ▸ this).2⟩
      refine ⟨by omega, ?_, ?_⟩
      · rw [hin.1, Nat.sub_self, List.drop_zero, hm, hin.2]
      · intro e he
        rw [hin.1, Nat.sub_self] at he
        exact absurd he (Nat.not_lt_zero e)
    | none =>
      rw [hm] at h
      obtain ⟨hji, hmt, hall⟩ := ih (j + 1) h
      refine ⟨by omega, ?_, ?_⟩
      · have : (c :: t).drop (i - j) = t.drop (i - j - 1) := by
          cases hij : i - j with
          | zero => omega
          | succ d => rw [List.drop_succ_cons, Nat.add_sub_cancel]
        rw [this]
        have : i - j - 1 = i - (j + 1) := by omega
        rw [this]
        exact hmt
      · intro e he
        cases e with
        | zero => rw [List.drop_zero]; exact hm
        | succ e' =>
          rw [List.drop_succ_cons]
          exact hall e' (by omega)

theorem shaFindAux_of_match (s : JStr) (j d n : Nat)
    (hm : matchG 4 (s.drop d) = some n)
    (hnone : ∀ e < d, matchG 4 (s.drop e) = none) :
    shaFindAux j s = some (j + d, n) := by
  induction s generalizing j d with
  | nil =>
    rw [List.drop_eq_nil_of_le (by exact Nat.zero_le d)] at hm
    exact absurd hm (by rw [matchG4_nil]; exact fun hh => Option.noConfusion hh)
  | cons c t ih =>
    cases d with
    | zero =>
      rw [List.drop_zero] at hm
      rw [shaFindAux, hm]
      rfl
    | succ d' =>
      have h0 : matchG 4 (c :: t) = none := by
        have := hnone 0 (Nat.succ_pos d')
        rwa [List.drop_zero] at this
      rw [shaFindAux, h0]
      have hmt : matchG 4 (t.drop d') = some n := by
        rwa [List.drop_succ_cons] at hm
      have hnt : ∀ e < d', matchG 4 (t.drop e) = none := by
        intro e he
        have := hnone (e + 1) (by omega)
        rwa [List.drop_succ_cons] at this
      rw [ih (j + 1) d' hmt hnt]
      have heq : j + 1 + d' = j + (d' + 1) := by omega
      rw [heq]

theorem shaFind_spec (s : JStr) (i n : Nat) (h : shaFind s = some (i, n)) :
    matchG 4 (s.drop i) = some n ∧ ∀ e < i, matchG 4 (s.drop e) = none := by
  obtain ⟨_, hm, hall⟩ := shaFindAux_spec s 0 i n h
  rw [Nat.sub_zero] at hm hall
  exact ⟨hm, hall⟩

theorem shaFind_of_match (s : JStr) (d n : Nat)
    (hm : matchG 4 (s.drop d) = some n)
    (hnone : ∀ e < d, matchG 4 (s.drop e) = none) :
    shaFind s = some (d, n) := by
  have := shaFindAux_of_match s 0 d n hm hnone
  rwa [Nat.zero_add] at this

/-! ## Characterizations of startsWith, indexOf and includes -/

theorem isPfxL_iff_take (nee hay : JStr) :
    isPfxL nee hay = true ↔ hay.take nee.length = nee := by
  induction nee generalizing hay with
  | nil => simp [isPfxL]
  | cons a as ih =>
    cases hay with
    | nil =>
      constructor
      · intro h; exact absurd h (by rw [isPfxL]; exact fun hh => Bool.noConfusion hh)
      · intro h; exact absurd h (by simp)
    | cons b bs =>
      rw [isPfxL, List.length_cons, List.take_succ_cons]
      constructor
      · intro h
        have h1 : a = b := of_decide_eq_true (Bool.and_eq_true_iff.mp h).1
        have h2 := (ih bs).mp (Bool.and_eq_true_iff.mp h).2
        rw [h1, h2]
      · intro h
        have h1 : b = a := (List.cons.injEq _ _ _ _ ▸ h).1
        have h2 : bs.take as.length = as := (List.cons.injEq _ _ _ _ ▸ h).2
        rw [Bool.and_eq_true_iff]
        exact ⟨decide_eq_true h1.symm, (ih bs).mpr h2⟩

theorem isPfxL_getElem? (nee hay : JStr) (h : isPfxL nee hay = true) (i : Nat)
    (hi : i < nee.length) : hay[i]? = nee[i]? := by
  have ht := (isPfxL_iff_take nee hay).mp h
  calc hay[i]? = (hay.take nee.length)[i]? := (List.getElem?_take_of_lt hi).symm
    _ = nee[i]? := by rw [ht]

theorem isPfxL_append_self (x y : JStr) : isPfxL x (x ++ y) = true := by
  rw [isPfxL_iff_take, List.take_append_of_le_length (Nat.le_refl _), List.take_length]

theorem isPfxL_length_le (nee hay : JStr) (h : isPfxL nee hay = true) :
    nee.length ≤ hay.length := by
  have ht := (isPfxL_iff_take nee hay).mp h
  have := congrArg List.length ht
  rw [List.length_take] at this
  omega

theorem firstOcc_some (nee h : JStr) (i : Nat) (hf : firstOcc nee h = some i) :
    isPfxL nee (h.drop i) = true ∧ ∀ j < i, isPfxL nee (h.drop j) = false := by
  induction h generalizing i with
  | nil =>
    rw [firstOcc] at hf
    by_cases hp : isPfxL nee [] = true
    · rw [if_pos hp] at hf
      have : i = 0 := (Option.some.injEq _ _ ▸ hf).symm
      subst this
      exact ⟨hp, fun j hj => absurd hj (Nat.not_lt_zero j)⟩
    · rw [if_neg hp] at hf
      exact Option.noConfusion hf
  | cons c t ih =>
    rw [firstOcc] at hf
    by_cases hp : isPfxL nee (c :: t) = true
    · rw [if_pos hp] at hf
      have : i = 0 := (Option.some.injEq _ _ ▸ hf).symm
      subst this
      exact ⟨hp, fun j hj => absurd hj (Nat.not_lt_zero j)⟩
    · rw [if_neg hp] at hf
      cases hft : firstOcc nee t with
      | none => rw [hft] at hf; exact Option.noConfusion hf
      | some i' =>
        rw [hft] at hf
        have hii : i = i' + 1 := (Option.some.injEq _ _ ▸ hf).symm
        subst hii
        obtain ⟨h1, h2⟩ := ih i' hft
        refine ⟨by rwa [List.drop_succ_cons], ?_⟩
        intro j hj
        cases j with
        | zero =>
          rw [List.drop_zero]
          exact Bool.not_eq_true _ ▸ (fun hh => hp hh)
        | succ j' =>
          rw [List.drop_succ_cons]
          exact h2 j' (by omega)

theorem firstOcc_none (nee h : JStr) (hf : firstOcc nee h = none) :
    ∀ j, isPfxL nee (h.drop j) = false := by
  induction h with
  | nil =>
    intro j
    rw [firstOcc] at hf
    by_cases hp : isPfxL nee [] = true
    · rw [if_pos hp] at hf; exact Option.noConfusion hf
    · rw [List.drop_eq_nil_of_le (by simp)]
      exact Bool.not_eq_true _ ▸ (fun hh => hp hh)
  | cons c t ih =>
    intro j
    rw [firstOcc] at hf
    by_cases hp : isPfxL nee (c :: t) = true
    · rw [if_pos hp] at hf; exact Option.noConfusion hf
    · rw [if_neg hp] at hf
      cases hft : firstOcc nee t with
      | some i' => rw [hft] at hf; exact Option.noConfusion hf
      | none =>
        cases j with
        | zero =>
          rw [List.drop_zero]
          exact Bool.not_eq_true _ ▸ (fun hh => hp hh)
        | succ j' =>
          rw [List.drop_succ_cons]
          exact ih hft j'

theorem firstOcc_of_isPfxL (nee h : JStr) (i : Nat)
    (hp : isPfxL nee (h.drop i) = true)
    (hmin : ∀ j < i, isPfxL nee (h.drop j) = false) :
    firstOcc nee h = some i := by
  induction h generalizing i with
  | nil =>
    rw [List.drop_eq_nil_of_le (by simp)] at hp
    rw [firstOcc, if_pos hp]
    cases i with
    | zero => rfl
    | succ i' =>
      have := hmin 0 (Nat.succ_pos i')
      rw [List.drop_eq_nil_of_le (by simp)] at this
      rw [this] at hp
      exact Bool.noConfusion hp
  | cons c t ih =>
    cases i with
    | zero =>
      rw [List.drop_zero] at hp
      rw [firstOcc, if_pos hp]
    | succ i' =>
      have h0 : isPfxL nee (c :: t) = false := by
        have := hmin 0 (Nat.succ_pos i')
        rwa [List.drop_zero] at this
      rw [firstOcc, if_neg (by rw [h0]; exact fun hh => Bool.noConfusion hh)]
      rw [List.drop_succ_cons] at hp
      have hmt : ∀ j < i', isPfxL nee (t.drop j) = false := by
        intro j hj
        have := hmin (j + 1) (by omega)
        rwa [List.drop_succ_cons] at this
      rw [ih i' hp hmt]
      rfl

theorem jsIncludes_false_iff (h o : JStr) :
    jsIncludes h o = false ↔ ∀ j, isPfxL o (h.drop j) = false := by
  induction h with
  | nil =>
    rw [jsIncludes]
    constructor
    · intro hf j
      rw [List.drop_eq_nil_of_le (by simp)]
      exact hf
    · intro hall
      have := hall 0
      rwa [List.drop_zero] at this
  | cons c t ih =>
    rw [jsIncludes, Bool.or_eq_false_iff]
    constructor
    · intro hf j
      cases j with
      | zero => rw [List.drop_zero]; exact hf.1
      | succ j' =>
        rw [List.drop_succ_cons]
        exact (ih.mp hf.2) j'
    · intro hall
      constructor
      · have := hall 0
        rwa [List.drop_zero] at this
      · rw [ih]
        intro j
        have := hall (j + 1)
        rwa [List.drop_succ_cons] at this

/-! ## Helpers for the normalizer fixed-point argument -/

theorem drop_append_of_le (x y : JStr) (j : Nat) (h : j ≤ x.length) :
    (x ++ y).drop j = x.drop j ++ y := by
  rw [List.drop_append_eq_append_drop, Nat.sub_eq_zero_of_le h, List.drop_zero]

theorem takeWhile_append_stop (x y : JStr) (c : Char)
    (hc : c ∈ x) (hf : isHexDash c = false) :
    (x ++ y).takeWhile isHexDash = x.takeWhile isHexDash := by
  induction x with
  | nil => exact absurd hc (List.not_mem_nil c)
  | cons a t ih =>
    by_cases ha : isHexDash a = true
    · rw [List.cons_append, List.takeWhile_cons_of_pos ha, List.takeWhile_cons_of_pos ha]
      have hct : c ∈ t := by
        rcases List.mem_cons.mp hc with h | h
        · rw [h] at hf; rw [hf] at ha; exact Bool.noConfusion ha
        · exact h
      rw [ih hct]
    · rw [List.cons_append, List.takeWhile_cons_of_neg ha, List.takeWhile_cons_of_neg ha]

theorem takeWhile_append_bound (x y : JStr) (c0 : Char) (hf : isHexDash c0 = false) :
    ((x ++ c0 :: y).takeWhile isHexDash).length ≤ x.length := by
  induction x with
  | nil =>
    rw [List.nil_append, List.takeWhile_cons_of_neg (by simp [hf])]
  | cons a t ih =>
    by_cases ha : isHexDash a = true
    · rw [List.cons_append, List.takeWhile_cons_of_pos ha, List.length_cons, List.length_cons]
      omega
    · rw [List.cons_append, List.takeWhile_cons_of_neg ha]
      exact Nat.zero_le _

/-- No position inside "refs/heads/" starts a match, whatever follows. -/
theorem matchG_none_refsHeads (j : Nat) (hj : j < 11) (mm : JStr) :
    matchG 4 (refsHeads.drop j ++ mm) = none := by
  apply matchG_none_of_short_block
  have hsl : ('/' : Char) ∈ refsHeads.drop j := by
    interval_cases j <;> decide
  rw [takeWhile_append_stop _ _ '/' hsl (by decide)]
  have : ((refsHeads.drop j).takeWhile isHexDash).length ≤ 3 := by
    interval_cases j <;> decide
  omega

theorem mem_of_getElem?_some (l : JStr) (c : Char) (i : Nat) (h : l[i]? = some c) : c ∈ l := by
  obtain ⟨hlt, hg⟩ := List.getElem?_eq_some_iff.mp h
  exact hg ▸ List.getElem_mem hlt

/-- Fixed point of the rewrite when the path contains a ".git/" marker:
normalizing the rewritten path reproduces it. -/
theorem normalizePath_fix_git (p : JStr) (pos n i : Nat)
    (hhead : headIsSlash p = false)
    (hfind : shaFind p = some (pos, n))
    (hinc : jsIncludes p objectsLit = false)
    (hgit : firstOcc gitMark p = some i) :
    normalizePath (p.take (i + 5) ++ (refsHeads ++ (p.drop pos).take n))
      = p.take (i + 5) ++ (refsHeads ++ (p.drop pos).take n) := by
  obtain ⟨hm, hnone⟩ := shaFind_spec p pos n hfind
  obtain ⟨hgp, hgmin⟩ := firstOcc_some gitMark p i hgit
  set m : JStr := (p.drop pos).take n with hm_def
  set A : JStr := p.take (i + 5) with hA_def
  set X : JStr := refsHeads ++ m with hX_def
  have hn24 : 24 ≤ n := matchG_lower 4 _ n hm
  have hnlen : n ≤ p.length - pos := by
    have := matchG_le_length 4 _ n hm
    rwa [List.length_drop] at this
  have hplen : 24 ≤ p.length := by omega
  have hi5 : i + 5 ≤ p.length := by
    have h5 := isPfxL_length_le gitMark (p.drop i) hgp
    rw [List.length_drop] at h5
    have : gitMark.length = 5 := rfl
    omega
  have hAlen : A.length = i + 5 := by
    rw [hA_def, List.length_take]
    omega
  have hAdrop : A.drop i = gitMark := by
    rw [hA_def, List.drop_take _ _ _]
    have h5 : i + 5 - i = 5 := by omega
    rw [h5]
    have := (isPfxL_iff_take gitMark (p.drop i)).mp hgp
    exact this
  have hAsplit : A.take i ++ gitMark = A := by
    conv_rhs => rw [← List.take_append_drop i A]
    rw [hAdrop]
  have hAtake_len : (A.take i).length = i := by
    rw [List.length_take]
    omega
  have hmlen : m.length = n := by
    rw [hm_def, List.length_take, List.length_drop]
    omega
  have hmmatch : matchG 4 m = some n := matchG_take 4 _ n hm
  have hmHex : ∀ c ∈ m, isHexDash c = true := matched_isHexDash (p.drop pos) n hm
  have hslash_mem : ∀ j, j < i + 5 → ('/' : Char) ∈ A.drop j := by
    intro j hj
    by_cases hji : j ≤ i
    · rw [← hAsplit, drop_append_of_le _ _ j (by omega)]
      exact List.mem_append_right _ (by decide)
    · rw [← hAsplit, List.drop_append_eq_append_drop,
        List.drop_eq_nil_of_le (by omega), List.nil_append, hAtake_len]
      have hk : j - i = 1 ∨ j - i = 2 ∨ j - i = 3 ∨ j - i = 4 := by omega
      rcases hk with hk | hk | hk | hk <;> rw [hk] <;> decide
  have hqdrop : ∀ j, j ≤ i + 5 → (A ++ X).drop j = A.drop j ++ X := by
    intro j hj
    exact drop_append_of_le A X j (by omega)
  have hpdrop : ∀ j, j ≤ i + 5 → p.drop j = A.drop j ++ p.drop (i + 5) := by
    intro j hj
    conv_lhs => rw [← List.take_append_drop (i + 5) p]
    rw [← hA_def, drop_append_of_le A _ j (by omega)]
  have hblock : ∀ j, j < i + 5 →
      ((A ++ X).drop j).takeWhile isHexDash = (p.drop j).takeWhile isHexDash := by
    intro j hj
    rw [hqdrop j (by omega), hpdrop j (by omega),
      takeWhile_append_stop _ _ '/' (hslash_mem j hj) (by decide),
      takeWhile_append_stop _ _ '/' (hslash_mem j hj) (by decide)]
  have htransfer : ∀ j, j < i + 5 → matchG 4 ((A ++ X).drop j) = matchG 4 (p.drop j) := by
    intro j hj
    apply matchG_transfer
    exact hblock j hj
  have hqX : (A ++ X).drop (i + 5) = X := by
    rw [← hAlen, List.drop_left]
  have hRlen : refsHeads.length = 11 := rfl
  have hqRj : ∀ j', j' ≤ 11 → (A ++ X).drop (i + 5 + j') = refsHeads.drop j' ++ m := by
    intro j' hj'
    rw [← List.drop_drop j' (i + 5) (A ++ X), hqX, hX_def,
      drop_append_of_le _ _ j' (by rw [hRlen]; exact hj')]
  have htake_eq : ∀ j len, j + len ≤ i + 5 →
      ((A ++ X).drop j).take len = (p.drop j).take len := by
    intro j len hjl
    rw [hqdrop j (by omega), hpdrop j (by omega),
      List.take_append_of_le_length (by rw [List.length_drop, hAlen]; omega),
      List.take_append_of_le_length (by rw [List.length_drop, hAlen]; omega)]
  -- (a) the scan of the rewritten path finds exactly m
  have hscan : ∃ pq, shaFind (A ++ X) = some (pq, n) ∧ ((A ++ X).drop pq).take n = m := by
    by_cases hpos : pos < i + 5
    · refine ⟨pos, ?_, ?_⟩
      · apply shaFind_of_match
        · rw [htransfer pos hpos]; exact hm
        · intro e he
          rw [htransfer e (by omega)]
          exact hnone e he
      · have hmq : matchG 4 ((A ++ X).drop pos) = some n := by
          rw [htransfer pos hpos]; exact hm
        have hble_q := matchG_le_block 4 _ n hmq
        have hble_p := matchG_le_block 4 (p.drop pos) n hm
        rw [take_of_le_takeWhile isHexDash _ n hble_q, hblock pos hpos,
          ← take_of_le_takeWhile isHexDash _ n hble_p]
    · refine ⟨i + 16, ?_, ?_⟩
      · apply shaFind_of_match
        · have h16 : i + 16 = i + 5 + 11 := by omega
          rw [h16, hqRj 11 (Nat.le_refl _)]
          show matchG 4 ([] ++ m) = some n
          rw [List.nil_append]
          exact hmmatch
        · intro e he
          by_cases hei : e < i + 5
          · rw [htransfer e hei]
            exact hnone e (by omega)
          · have he' : e = i + 5 + (e - (i + 5)) := by omega
            rw [he', hqRj (e - (i + 5)) (by omega)]
            exact matchG_none_refsHeads (e - (i + 5)) (by omega) m
      · have h16 : i + 16 = i + 5 + 11 := by omega
        rw [h16, hqRj 11 (Nat.le_refl _)]
        show (([] : JStr) ++ m).take n = m
        rw [List.nil_append, ← hmlen, List.take_length]
  -- (b) the rewritten path still contains no "objects"
  have holen : objectsLit.length = 7 := rfl
  have hincQ : jsIncludes (A ++ X) objectsLit = false := by
    rw [jsIncludes_false_iff]
    intro j
    by_contra hcon
    have hp : isPfxL objectsLit ((A ++ X).drop j) = true := by
      cases hcc : isPfxL objectsLit ((A ++ X).drop j) with
      | true => rfl
      | false => exact absurd hcc hcon
    by_cases h1 : j + 7 ≤ i + 5
    · have ht := (isPfxL_iff_take _ _).mp hp
      rw [holen, htake_eq j 7 h1] at ht
      have : isPfxL objectsLit (p.drop j) = true := by
        rw [isPfxL_iff_take, holen]
        exact ht
      have := (jsIncludes_false_iff p objectsLit).mp hinc j
      rw [this] at ‹isPfxL objectsLit (p.drop j) = true›
      exact Bool.noConfusion ‹(false : Bool) = true›
    · by_cases h2 : j < i + 5
      · -- the prefix would straddle the boundary: char k of "objects" would be 'r'
        have hk7 : i + 5 - j < 7 := by omega
        have hk1 : 1 ≤ i + 5 - j := by omega
        have hchar := isPfxL_getElem? objectsLit _ hp (i + 5 - j) (by omega)
        rw [hqdrop j (by omega)] at hchar
        rw [List.getElem?_append_right (by rw [List.length_drop, hAlen])] at hchar
        have hidx : i + 5 - j - (A.drop j).length = 0 := by
          rw [List.length_drop, hAlen]
          omega
        rw [hidx] at hchar
        have hX0 : X[0]? = some 'r' := rfl
        rw [hX0] at hchar
        set k := i + 5 - j with hk_def
        have : k = 1 ∨ k = 2 ∨ k = 3 ∨ k = 4 ∨ k = 5 ∨ k = 6 := by omega
        rcases this with hk | hk | hk | hk | hk | hk <;> rw [hk] at hchar <;>
          exact absurd hchar.symm (by decide)
      · -- inside refs/heads/ or inside the hex match itself
        have hj5 : j = i + 5 + (j - (i + 5)) := by omega
        by_cases h3 : j - (i + 5) < 11
        · have hchar := isPfxL_getElem? objectsLit _ hp 0 (by omega)
          rw [hj5, hqRj (j - (i + 5)) (by omega)] at hchar
          rw [List.getElem?_append_left (by
            rw [List.length_drop]
            have : refsHeads.length = 11 := rfl
            omega)] at hchar
          have ho0 : objectsLit[0]? = some 'o' := rfl
          rw [ho0] at hchar
          set j' := j - (i + 5) with hj'_def
          have : j' = 0 ∨ j' = 1 ∨ j' = 2 ∨ j' = 3 ∨ j' = 4 ∨ j' = 5 ∨ j' = 6 ∨ j' = 7 ∨
              j' = 8 ∨ j' = 9 ∨ j' = 10 := by omega
          rcases this with hk | hk | hk | hk | hk | hk | hk | hk | hk | hk | hk <;>
            rw [hk] at hchar <;> exact absurd hchar (by decide)
        · by_cases hnil : (m.drop (j - (i + 5) - 11)).length = 0
          · have hml := isPfxL_length_le objectsLit _ hp
            rw [holen] at hml
            rw [hj5] at hml
            have h11 : i + 5 + (j - (i + 5)) = i + 5 + 11 + (j - (i + 5) - 11) := by omega
            rw [h11] at hml
            have : (A ++ X).drop (i + 5 + 11 + (j - (i + 5) - 11))
                = m.drop (j - (i + 5) - 11) := by
              rw [← List.drop_drop (j - (i + 5) - 11) (i + 5 + 11) (A ++ X),
                hqRj 11 (Nat.le_refl _)]
              show (([] : JStr) ++ m).drop (j - (i + 5) - 11) = _
              rw [List.nil_append]
            rw [this] at hml
            omega
          · have hchar := isPfxL_getElem? objectsLit _ hp 0 (by omega)
            have hqm : (A ++ X).drop j = m.drop (j - (i + 5) - 11) := by
              rw [hj5]
              have h11 : i + 5 + (j - (i + 5)) = i + 5 + 11 + (j - (i + 5) - 11) := by omega
              rw [h11, ← List.drop_drop (j - (i + 5) - 11) (i + 5 + 11) (A ++ X),
                hqRj 11 (Nat.le_refl _)]
              show (([] : JStr) ++ m).drop (j - (i + 5) - 11) = _
              rw [List.nil_append]
              congr 1
              omega
            rw [hqm] at hchar
            have ho0 : objectsLit[0]? = some 'o' := rfl
            rw [ho0] at hchar
            have hom : ('o' : Char) ∈ m :=
              List.mem_of_mem_drop (mem_of_getElem?_some _ _ _ hchar)
            have := hmHex 'o' hom
            exact absurd this (by decide)
  -- (c) ".git/" still first occurs at i
  have hgitQ : firstOcc gitMark (A ++ X) = some i := by
    apply firstOcc_of_isPfxL
    · rw [hqdrop i (by omega), hAdrop]
      exact isPfxL_append_self gitMark X
    · intro j hj
      cases hcc : isPfxL gitMark ((A ++ X).drop j) with
      | false => rfl
      | true =>
        have ht := (isPfxL_iff_take _ _).mp hcc
        have h5len : gitMark.length = 5 := rfl
        rw [h5len, htake_eq j 5 (by omega)] at ht
        have : isPfxL gitMark (p.drop j) = true := by
          rw [isPfxL_iff_take, h5len]
          exact ht
        rw [hgmin j hj] at this
        exact Bool.noConfusion this
  -- assemble: normalize the rewritten path
  obtain ⟨pq, hfq, htq⟩ := hscan
  have hqhead : headIsSlash (A ++ X) = false := by
    cases hpcase : p with
    | nil =>
      rw [hpcase] at hplen
      simp at hplen
    | cons c t =>
      have hA_cons : A = c :: t.take (i + 4) := by
        rw [hA_def, hpcase]
        rfl
      rw [hA_cons]
      show decide (c = '/') = false
      rw [hpcase] at hhead
      exact hhead
  have htn : ((i : Int) + 5).toNat = i + 5 := by omega
  simp only [normalizePath, hqhead, Bool.false_eq_true, if_false, shaExec, hfq,
    Option.map_some', htq, hincQ, jsIndexOf, hgitQ, htn]
  rw [List.take_append_of_le_length (by omega), ← hAlen, List.take_length,
    List.append_assoc]

/-- Fixed point of the rewrite when the path has no ".git/" marker: the
root degenerates to the first four characters and normalizing the
rewritten path reproduces it. -/
theorem normalizePath_fix_nogit (p : JStr) (pos n : Nat)
    (hhead : headIsSlash p = false)
    (hfind : shaFind p = some (pos, n))
    (_hinc : jsIncludes p objectsLit = false)
    (hgit : firstOcc gitMark p = none) :
    normalizePath (p.take 4 ++ (refsHeads ++ (p.drop pos).take n))
      = p.take 4 ++ (refsHeads ++ (p.drop pos).take n) := by
  obtain ⟨hm, hnone⟩ := shaFind_spec p pos n hfind
  have hgall := firstOcc_none gitMark p hgit
  set m : JStr := (p.drop pos).take n with hm_def
  set A : JStr := p.take 4 with hA_def
  set X : JStr := refsHeads ++ m with hX_def
  have hn24 : 24 ≤ n := matchG_lower 4 _ n hm
  have hnlen : n ≤ p.length - pos := by
    have := matchG_le_length 4 _ n hm
    rwa [List.length_drop] at this
  have hplen : 24 ≤ p.length := by omega
  have hAlen : A.length = 4 := by
    rw [hA_def, List.length_take]
    omega
  have hmlen : m.length = n := by
    rw [hm_def, List.length_take, List.length_drop]
    omega
  have hmmatch : matchG 4 m = some n := matchG_take 4 _ n hm
  have hmHex : ∀ c ∈ m, isHexDash c = true := matched_isHexDash (p.drop pos) n hm
  have hXcons : X = 'r' :: (toL "efs/heads/" ++ m) := by rw [hX_def]; rfl
  have hqdrop : ∀ j, j ≤ 4 → (A ++ X).drop j = A.drop j ++ X := by
    intro j hj
    exact drop_append_of_le A X j (by omega)
  have hqX : (A ++ X).drop 4 = X := by
    rw [← hAlen, List.drop_left]
  have hRlen : refsHeads.length = 11 := rfl
  have hqRj : ∀ j', j' ≤ 11 → (A ++ X).drop (4 + j') = refsHeads.drop j' ++ m := by
    intro j' hj'
    rw [← List.drop_drop j' 4 (A ++ X), hqX, hX_def,
      drop_append_of_le _ _ j' (by rw [hRlen]; exact hj')]
  -- the scan of the rewritten path finds exactly m at position 15
  have hnone4 : ∀ j, j < 4 → matchG 4 ((A ++ X).drop j) = none := by
    intro j hj
    apply matchG_none_of_short_block
    rw [hqdrop j (by omega), hXcons]
    have hb := takeWhile_append_bound (A.drop j) (toL "efs/heads/" ++ m) 'r' (by decide)
    rw [List.length_drop, hAlen] at hb
    omega
  have hscan : shaFind (A ++ X) = some (15, n) := by
    apply shaFind_of_match
    · have h15 : (15 : Nat) = 4 + 11 := by omega
      rw [h15, hqRj 11 (Nat.le_refl _)]
      show matchG 4 ([] ++ m) = some n
      rw [List.nil_append]
      exact hmmatch
    · intro e he
      by_cases he4 : e < 4
      · exact hnone4 e he4
      · have he' : e = 4 + (e - 4) := by omega
        rw [he', hqRj (e - 4) (by omega)]
        exact matchG_none_refsHeads (e - 4) (by omega) m
  have htext : ((A ++ X).drop 15).take n = m := by
    have h15 : (15 : Nat) = 4 + 11 := by omega
    rw [h15, hqRj 11 (Nat.le_refl _)]
    show (([] : JStr) ++ m).take n = m
    rw [List.nil_append, ← hmlen, List.take_length]
  have holen : objectsLit.length = 7 := rfl
  -- the rewritten path still contains no "objects"
  have hincQ : jsIncludes (A ++ X) objectsLit = false := by
    rw [jsIncludes_false_iff]
    intro j
    cases hcc : isPfxL objectsLit ((A ++ X).drop j) with
    | false => rfl
    | true =>
      exfalso
      by_cases h2 : j < 4
      · have hchar := isPfxL_getElem? objectsLit _ hcc (4 - j) (by omega)
        rw [hqdrop j (by omega)] at hchar
        rw [List.getElem?_append_right (by rw [List.length_drop, hAlen])] at hchar
        have hidx : 4 - j - (A.drop j).length = 0 := by
          rw [List.length_drop, hAlen]
          omega
        rw [hidx] at hchar
        have hX0 : X[0]? = some 'r' := by rw [hXcons]; rfl
        rw [hX0] at hchar
        set k := 4 - j with hk_def
        have : k = 1 ∨ k = 2 ∨ k = 3 ∨ k = 4 := by omega
        rcases this with hk | hk | hk | hk <;> rw [hk] at hchar <;>
          exact absurd hchar.symm (by decide)
      · have hj5 : j = 4 + (j - 4) := by omega
        by_cases h3 : j - 4 < 11
        · have hchar := isPfxL_getElem? objectsLit _ hcc 0 (by omega)
          rw [hj5, hqRj (j - 4) (by omega)] at hchar
          rw [List.getElem?_append_left (by rw [List.length_drop, hRlen]; omega)] at hchar
          have ho0 : objectsLit[0]? = some 'o' := rfl
          rw [ho0] at hchar
          set j' := j - 4 with hj'_def
          have : j' = 0 ∨ j' = 1 ∨ j' = 2 ∨ j' = 3 ∨ j' = 4 ∨ j' = 5 ∨ j' = 6 ∨ j' = 7 ∨
              j' = 8 ∨ j' = 9 ∨ j' = 10 := by omega
          rcases this with hk | hk | hk | hk | hk | hk | hk | hk | hk | hk | hk <;>
            rw [hk] at hchar <;> exact absurd hchar (by decide)
        · have hqm : (A ++ X).drop j = m.drop (j - 4 - 11) := by
            rw [hj5]
            have h11 : 4 + (j - 4) = 4 + 11 + (j - 4 - 11) := by omega
            rw [h11, ← List.drop_drop (j - 4 - 11) (4 + 11) (A ++ X),
              hqRj 11 (Nat.le_refl _)]
            show (([] : JStr) ++ m).drop (j - 4 - 11) = _
            rw [List.nil_append]
            congr 1
            omega
          by_cases hnil : (m.drop (j - 4 - 11)).length = 0
          · have hml := isPfxL_length_le objectsLit _ hcc
            rw [holen, hqm] at hml
            omega
          · have hchar := isPfxL_getElem? objectsLit _ hcc 0 (by omega)
            rw [hqm] at hchar
            have ho0 : objectsLit[0]? = some 'o' := rfl
            rw [ho0] at hchar
            have hom : ('o' : Char) ∈ m :=
              List.mem_of_mem_drop (mem_of_getElem?_some _ _ _ hchar)
            exact absurd (hmHex 'o' hom) (by decide)
  -- the rewritten path still has no ".git/" marker
  have hgitQ : firstOcc gitMark (A ++ X) = none := by
    have h5len : gitMark.length = 5 := rfl
    have hall : ∀ j, isPfxL gitMark ((A ++ X).drop j) = false := by
      intro j
      cases hcc : isPfxL gitMark ((A ++ X).drop j) with
      | false => rfl
      | true =>
        exfalso
        by_cases h2 : j < 4
        · have hchar := isPfxL_getElem? gitMark _ hcc (4 - j) (by omega)
          rw [hqdrop j (by omega)] at hchar
          rw [List.getElem?_append_right (by rw [List.length_drop, hAlen])] at hchar
          have hidx : 4 - j - (A.drop j).length = 0 := by
            rw [List.length_drop, hAlen]
            omega
          rw [hidx] at hchar
          have hX0 : X[0]? = some 'r' := by rw [hXcons]; rfl
          rw [hX0] at hchar
          set k := 4 - j with hk_def
          have : k = 1 ∨ k = 2 ∨ k = 3 ∨ k = 4 := by omega
          rcases this with hk | hk | hk | hk <;> rw [hk] at hchar <;>
            exact absurd hchar.symm (by decide)
        · have hj5 : j = 4 + (j - 4) := by omega
          by_cases h3 : j - 4 < 11
          · have hchar := isPfxL_getElem? gitMark _ hcc 0 (by omega)
            rw [hj5, hqRj (j - 4) (by omega)] at hchar
            rw [List.getElem?_append_left (by rw [List.length_drop, hRlen]; omega)] at hchar
            have ho0 : gitMark[0]? = some '.' := rfl
            rw [ho0] at hchar
            set j' := j - 4 with hj'_def
            have : j' = 0 ∨ j' = 1 ∨ j' = 2 ∨ j' = 3 ∨ j' = 4 ∨ j' = 5 ∨ j' = 6 ∨ j' = 7 ∨
                j' = 8 ∨ j' = 9 ∨ j' = 10 := by omega
            rcases this with hk | hk | hk | hk | hk | hk | hk | hk | hk | hk | hk <;>
              rw [hk] at hchar <;> exact absurd hchar (by decide)
          · have hqm : (A ++ X).drop j = m.drop (j - 4 - 11) := by
              rw [hj5]
              have h11 : 4 + (j - 4) = 4 + 11 + (j - 4 - 11) := by omega
              rw [h11, ← List.drop_drop (j - 4 - 11) (4 + 11) (A ++ X),
                hqRj 11 (Nat.le_refl _)]
              show (([] : JStr) ++ m).drop (j - 4 - 11) = _
              rw [List.nil_append]
              congr 1
              omega
            by_cases hnil : (m.drop (j - 4 - 11)).length = 0
            · have hml := isPfxL_length_le gitMark _ hcc
              rw [h5len, hqm] at hml
              omega
            · have hchar := isPfxL_getElem? gitMark _ hcc 0 (by omega)
              rw [hqm] at hchar
              have ho0 : gitMark[0]? = some '.' := rfl
              rw [ho0] at hchar
              have hom : ('.' : Char) ∈ m :=
                List.mem_of_mem_drop (mem_of_getElem?_some _ _ _ hchar)
              exact absurd (hmHex '.' hom) (by decide)
    cases hfo : firstOcc gitMark (A ++ X) with
    | none => rfl
    | some i' =>
      obtain ⟨hgi, _⟩ := firstOcc_some gitMark (A ++ X) i' hfo
      rw [hall i'] at hgi
      exact Bool.noConfusion hgi
  have hqhead : headIsSlash (A ++ X) = false := by
    cases hpcase : p with
    | nil =>
      rw [hpcase] at hplen
      simp at hplen
    | cons c t =>
      have hA_cons : A = c :: t.take 3 := by
        rw [hA_def, hpcase]
        rfl
      rw [hA_cons]
      show decide (c = '/') = false
      rw [hpcase] at hhead
      exact hhead
  have htn : ((-1 : Int) + 5).toNat = 4 := rfl
  simp only [normalizePath, hqhead, Bool.false_eq_true, if_false, shaExec, hscan,
    Option.map_some', htext, hincQ, jsIndexOf, hgitQ, htn]
  rw [List.take_append_of_le_length (by omega), ← hAlen, List.take_length,
    List.append_assoc]

theorem headIsSlash_strip (fp : JStr) (h : isPfxL (toL "//") fp = false) :
    headIsSlash (if headIsSlash fp then fp.drop 1 else fp) = false := by
  cases fp with
  | nil => rfl
  | cons c t =>
    by_cases hc : c = '/'
    · subst hc
      have hcond : headIsSlash ('/' :: t) = true := rfl
      rw [hcond]
      show headIsSlash t = false
      have hpt : isPfxL (toL "/") t = false := by
        have : isPfxL (toL "//") ('/' :: t) = isPfxL (toL "/") t := by
          show (decide ('/' = '/') && isPfxL (toL "/") t) = isPfxL (toL "/") t
          simp
        rw [this] at h
        exact h
      cases t with
      | nil => rfl
      | cons d t' =>
        have : isPfxL (toL "/") (d :: t') = decide ('/' = d) := by
          show (decide ('/' = d) && isPfxL [] t') = decide ('/' = d)
          simp [isPfxL]
        rw [this] at hpt
        show decide (d = '/') = false
        have hd : d ≠ '/' := fun hh => by rw [hh] at hpt; simp at hpt
        simp [hd]
    · have hcond : headIsSlash (c :: t) = false := by
        show decide (c = '/') = false
        simp [hc]
      rw [hcond]
      show headIsSlash (c :: t) = false
      exact hcond

/-! ## C9 -/

/-- C9 counterexample: normalization strips only one leading separator
per application, so it is not idempotent on "//": one pass gives "/",
a second pass gives "". -/
theorem c9_cx : normalizePath (normalizePath (toL "//")) ≠ normalizePath (toL "//") := by
  decide

/-- C9 amended: path normalization is idempotent for every path that does
not begin with two separators; a path beginning with "//" loses one
leading separator per application, so normalization is not idempotent
there. -/
theorem c9_amended (fp : JStr) (h : isPfxL (toL "//") fp = false) :
    normalizePath (normalizePath fp) = normalizePath fp := by
  have hphead := headIsSlash_strip fp h
  set p : JStr := if headIsSlash fp then fp.drop 1 else fp with hp_def
  have hfp : normalizePath fp =
      (match shaExec p with
        | some sha =>
          if jsIncludes p objectsLit then p
          else p.take ((jsIndexOf p gitMark + 5).toNat) ++ refsHeads ++ sha
        | none => p) := rfl
  cases hse : shaExec p with
  | none =>
    rw [hfp, hse]
    simp only [normalizePath, hphead, Bool.false_eq_true, if_false, hse]
  | some sha =>
    by_cases hincl : jsIncludes p objectsLit = true
    · rw [hfp, hse]
      simp only [hincl, if_true]
      simp only [normalizePath, hphead, Bool.false_eq_true, if_false, hse, hincl, if_true]
    · have hincl' : jsIncludes p objectsLit = false := by
        cases hcc : jsIncludes p objectsLit with
        | false => rfl
        | true => exact absurd hcc hincl
      obtain ⟨pos, n, hfind, hsha⟩ :
          ∃ pos n, shaFind p = some (pos, n) ∧ sha = (p.drop pos).take n := by
        rw [shaExec] at hse
        cases hff : shaFind p with
        | none => rw [hff] at hse; exact Option.noConfusion hse
        | some pr =>
          rw [hff] at hse
          simp only [Option.map_some'] at hse
          exact ⟨pr.1, pr.2, rfl, ((Option.some.injEq _ _) ▸ hse).symm⟩
      have hform : normalizePath fp =
          p.take ((jsIndexOf p gitMark + 5).toNat) ++ refsHeads ++ sha := by
        rw [hfp, hse]
        simp only [hincl', Bool.false_eq_true, if_false]
      cases hgit : firstOcc gitMark p with
      | some i =>
        have hgt : (jsIndexOf p gitMark + 5).toNat = i + 5 := by
          simp only [jsIndexOf, hgit]
          omega
        rw [hform, hgt, hsha, List.append_assoc]
        exact normalizePath_fix_git p pos n i hphead hfind hincl' hgit
      | none =>
        have hgt : (jsIndexOf p gitMark + 5).toNat = 4 := by
          simp only [jsIndexOf, hgit]
          rfl
        rw [hform, hgt, hsha, List.append_assoc]
        exact normalizePath_fix_nogit p pos n hphead hfind hincl' hgit

theorem c9_amended_witness :
    normalizePath (normalizePath (toL "x.git/1234-5678-9abc-def0-4567"))
      = normalizePath (toL "x.git/1234-5678-9abc-def0-4567") :=
  c9_amended (toL "x.git/1234-5678-9abc-def0-4567") (by decide)

/-! ## C3: the claim-as-stated normalizer and the amended spec normalizer -/



theorem jsIncludes_eq_infixOf (h o : JStr) : jsIncludes h o = decide (o <:+: h) := by
  cases hcc : jsIncludes h o with
  | true =>
    have : ∃ j, isPfxL o (h.drop j) = true := by
      by_contra hno
      push_neg at hno
      have : ∀ j, isPfxL o (h.drop j) = false := by
        intro j
        cases hx : isPfxL o (h.drop j) with
        | true => exact absurd hx (hno j)
        | false => rfl
      rw [(jsIncludes_false_iff h o).mpr this] at hcc
      exact Bool.noConfusion hcc
    obtain ⟨j, hj⟩ := this
    have ht := (isPfxL_iff_take o _).mp hj
    have hsplit : o ++ (h.drop j).drop o.length = h.drop j := by
      conv_rhs => rw [← List.take_append_drop o.length (h.drop j)]
      rw [ht]
    have hinf : o <:+: h := by
      refine ⟨h.take j, (h.drop j).drop o.length, ?_⟩
      rw [List.append_assoc, hsplit, List.take_append_drop]
    simp [hinf]
  | false =>
    have hall := (jsIncludes_false_iff h o).mp hcc
    cases hd : decide (o <:+: h) with
    | false => rfl
    | true =>
      exfalso
      have hinf : o <:+: h := of_decide_eq_true hd
      obtain ⟨s, t, hst⟩ := hinf
      have hdrop : h.drop s.length = o ++ t := by
        rw [← hst, List.append_assoc, List.drop_left]
      have := hall s.length
      rw [hdrop, isPfxL_append_self] at this
      exact Bool.noConfusion this

theorem firstOcc_eq_rangeFind (nee h : JStr) :
    firstOcc nee h = (List.range (h.length + 1)).find? (fun i => isPfxL nee (h.drop i)) := by
  induction h with
  | nil =>
    rw [firstOcc]
    by_cases hp : isPfxL nee [] = true
    · rw [if_pos hp]
      symm
      show List.find? _ (List.range 1) = some 0
      rw [List.range_succ_eq_map, List.find?_cons]
      have h0 : isPfxL nee (List.drop 0 []) = true := hp
      rw [h0]
    · rw [if_neg hp]
      symm
      show List.find? _ (List.range 1) = none
      rw [List.range_succ_eq_map, List.find?_cons]
      have h0 : isPfxL nee (List.drop 0 []) = false := by
        cases hx : isPfxL nee (List.drop 0 []) with
        | true => exact absurd hx hp
        | false => rfl
      rw [h0]
      rfl
  | cons c t ih =>
    rw [firstOcc]
    by_cases hp : isPfxL nee (c :: t) = true
    · rw [if_pos hp]
      symm
      show List.find? _ (List.range (t.length + 1 + 1)) = some 0
      rw [List.range_succ_eq_map, List.find?_cons]
      have h0 : isPfxL nee (List.drop 0 (c :: t)) = true := hp
      rw [h0]
    · rw [if_neg hp]
      symm
      show List.find? _ (List.range (t.length + 1 + 1)) = (firstOcc nee t).map (· + 1)
      rw [List.range_succ_eq_map, List.find?_cons]
      have h0 : isPfxL nee (List.drop 0 (c :: t)) = false := by
        cases hx : isPfxL nee (List.drop 0 (c :: t)) with
        | true => exact absurd hx hp
        | false => rfl
      rw [h0]
      show List.find? (fun i => isPfxL nee ((c :: t).drop i))
          (List.map Nat.succ (List.range (t.length + 1))) = (firstOcc nee t).map (· + 1)
      rw [List.find?_map, ih]
      have hpred : ((fun i => isPfxL nee ((c :: t).drop i)) ∘ Nat.succ)
          = (fun i => isPfxL nee (t.drop i)) := by
        funext i
        show isPfxL nee ((c :: t).drop (Nat.succ i)) = _
        rw [List.drop_succ_cons]
      rw [hpred]

/-- C3 counterexample: the code suppresses the rewrite whenever
"objects" occurs as a substring, not as a whole path segment; on
"a.git/xobjectsx/1234-5678-9abc-def0-4567" the segment reading demands a
rewrite but the code returns the path unchanged. -/
theorem c3_cx :
    normalizePath (toL "a.git/xobjectsx/1234-5678-9abc-def0-4567")
      ≠ normalizeByClaim (toL "a.git/xobjectsx/1234-5678-9abc-def0-4567") := by
  decide

/-- C3 amended: the normalizer strips one leading separator; if the
remainder matches the SHA pattern and does not contain "objects" as a
substring (not: as a segment), it rewrites to root ++ "refs/heads/" ++
match, where root is everything up to and including the first ".git/"
occurrence — or the first four characters when ".git/" does not occur;
every other path is returned with at most the leading separator
removed. -/
theorem c3_amended (fp : JStr) : normalizePath fp = normalizeSpecAmended fp := by
  have hstrip : (if fp.head? = some '/' then fp.tail else fp)
      = (if headIsSlash fp then fp.drop 1 else fp) := by
    cases fp with
    | nil => rfl
    | cons c t =>
      by_cases hc : c = '/'
      · subst hc
        rfl
      · rw [if_neg (by simp [hc]), if_neg (by
          show ¬headIsSlash (c :: t) = true
          show ¬decide (c = '/') = true
          simp [hc])]
  simp only [normalizePath, normalizeSpecAmended]
  rw [hstrip]
  set p : JStr := if headIsSlash fp then fp.drop 1 else fp with hp_def
  cases hse : shaExec p with
  | none => rfl
  | some sha =>
    rw [jsIncludes_eq_infixOf p objectsLit]
    cases hin : decide (objectsLit <:+: p) with
    | true => rfl
    | false =>
      show p.take ((jsIndexOf p gitMark + 5).toNat) ++ refsHeads ++ sha
        = (match (List.range (p.length + 1)).find? (fun i => isPfxL gitMark (p.drop i)) with
            | some i => p.take (i + 5)
            | none => p.take 4) ++ refsHeads ++ sha
      have hroot : p.take ((jsIndexOf p gitMark + 5).toNat)
          = (match (List.range (p.length + 1)).find? (fun i => isPfxL gitMark (p.drop i)) with
            | some i => p.take (i + 5)
            | none => p.take 4) := by
        rw [← firstOcc_eq_rangeFind]
        cases hgit : firstOcc gitMark p with
        | some i =>
          simp only [jsIndexOf, hgit]
          congr 1
        | none =>
          simp only [jsIndexOf, hgit]
          rfl
      rw [hroot]

end S3FS
